import Mathlib

/-!
Verification development for the drawio-export repository.

The development shallowly embeds the four source files:
  * the codec (`decodeDrawio` / `encodeDrawio`),
  * the parsers (`parseContainers`, `findPrefixedNodes` and friends),
  * the transformers (edge resolution of `parseQuestions`),
  * the CSV exporter (`doFormatCsv`).

External capabilities (pako deflate, `atob`/`btoa`, jsdom XML/HTML
parsing, `encodeURIComponent`/`decodeURIComponent`) are modelled as
abstract stage functions returning `Option` (`none` models a thrown
exception caught by the surrounding `try`/`catch`).  Everything that the
repository itself implements (control flow, regexes, tree building,
flattening) is embedded concretely and executably.
-/

/- ================================================================
   Part 1: the codec (src: decodeDrawio / encodeDrawio)
   ================================================================ -/

/-- The external stages used by the codec.  Each is a function that may
fail (`none` models a thrown JS exception caught by the caller):
`unwrap` models the `parseXml` + `mxfile`/`diagram` text extraction
block, `atob`/`btoa` the base64 primitives, `inflateRaw`/`deflateRaw`
the pako raw-deflate primitives, and `uriDecode`/`uriEncode` the
percent-coding primitives. -/
structure CodecStages where
  unwrap : String → Option String
  atob : String → Option String
  btoa : String → Option String
  inflateRaw : String → Option String
  deflateRaw : String → Option String
  uriDecode : String → Option String
  uriEncode : String → Option String

/-- Codec options, each defaulting to `true` as in the source
(`base64 = true, deflate = true, urlEncode = true`). -/
structure CodecOptions where
  base64 : Bool := true
  deflate : Bool := true
  urlEncode : Bool := true

/-- Embedding of `decodeDrawio(data, options)`: (1) unwrap the
`<diagram>` text from an `mxfile` document (any parse exception aborts
with `null`), (2) if `base64` then `atob`, (3) if `deflate` and the data
is non-empty then raw-inflate, (4) if `urlEncode` then percent-decode.
Each failing stage makes the whole call return `null` (`none`). -/
def decodeDrawio (S : CodecStages) (opts : CodecOptions) (data : String) : Option String :=
  match S.unwrap data with
  | none => none
  | some d1 =>
    match (if opts.base64 then S.atob d1 else some d1) with
    | none => none
    | some d2 =>
      match (if opts.deflate = true ∧ 0 < d2.length then S.inflateRaw d2 else some d2) with
      | none => none
      | some d3 =>
        if opts.urlEncode then S.uriDecode d3 else some d3

/-- Embedding of `encodeDrawio(data, options)`: (1) if `urlEncode` then
percent-encode, (2) if `deflate` and the data is non-empty then
raw-deflate, (3) if `base64` then `btoa`.  Each failing stage makes the
whole call return `null` (`none`). -/
def encodeDrawio (S : CodecStages) (opts : CodecOptions) (data : String) : Option String :=
  match (if opts.urlEncode then S.uriEncode data else some data) with
  | none => none
  | some d1 =>
    match (if opts.deflate = true ∧ 0 < d1.length then S.deflateRaw d1 else some d1) with
    | none => none
    | some d2 =>
      if opts.base64 then S.btoa d2 else some d2

/-- The identity instantiation of the external stages, used to witness
the codec theorems on concrete data. -/
def idStages : CodecStages :=
  { unwrap := some, atob := some, btoa := some,
    inflateRaw := some, deflateRaw := some,
    uriDecode := some, uriEncode := some }

/-- Stages whose unwrap step always throws. -/
def unwrapFailStages : CodecStages :=
  { idStages with unwrap := fun _ => none }

/- ================================================================
   Part 2: the table flattener (src: doFormatCsv)
   ================================================================ -/

/-- The data of one container tree node (`nodeId` and `value` are JS
`null` for the synthetic root and for placeholder nodes, hence
`Option`). -/
structure CInfo where
  nodeId : Option String
  value : Option String
deriving DecidableEq

/-- A container tree node as consumed by `doFormatCsv` is represented
by its finite parent chain `[node, parent, grandparent, …]` (the JS
mutable `parent` pointers, unfolded; the `while (currContainer.parent)`
walks of the source terminate exactly on such finite chains).  The
empty list represents a JS `null`/absent container reference. -/
def truthyStr : Option String → Bool
  | none => false
  | some s => !s.isEmpty

/-- Depth walk of `doFormatCsv`: `while (currContainer.parent) depth++`
counts the ancestors of the node, i.e. the length of the tail of its
chain. -/
def depthOf : List CInfo → Nat
  | [] => 0
  | _ :: rest => rest.length

/-- `Math.max(...containers.result.all.map(depth))` for a non-empty
`all` list (natural depths, so folding from 0 agrees with `Math.max`). -/
def maxContainerDepth (all : List (List CInfo)) : Nat :=
  (all.map depthOf).foldl Nat.max 0

/-- The container-column walk of `doFormatCsv`: walk the chain upward
and `unshift` the `value` of every node whose `nodeId` is truthy, so
the outermost ancestor ends up first. -/
def chainValues : List CInfo → List (Option String)
  | [] => []
  | c :: rest => chainValues rest ++ (if truthyStr c.nodeId then [c.value] else [])

/-- The `while (containers.length < maxContainerDepth) containers.push('')`
padding of `doFormatCsv`. -/
def paddedChain (maxD : Nat) (chain : List CInfo) : List (Option String) :=
  let cs := chainValues chain
  cs ++ List.replicate (maxD - cs.length) (some "")

/-- The `containers.filter(Boolean)` then join with " / " step. -/
def containerKey (cells : List (Option String)) : String :=
  String.intercalate " / " ((cells.filter truthyStr).map (fun c => c.getD ""))

/-- A question as consumed by `doFormatCsv` (`pfx` embeds the JS
`prefix` field; `questions` is the ordered sub-question text list). -/
structure FQuestion where
  pfx : String
  prefixId : String
  questions : List String
deriving DecidableEq

/-- An assumption as consumed by `doFormatCsv`.  `container` is the
chain of its container reference (`[]` for a JS `null`/absent one). -/
structure FAssumption where
  pfx : String
  prefixId : String
  value : String
  container : List CInfo
  questions : List FQuestion
deriving DecidableEq

/-- `createRow(q, index)` of `doFormatCsv`; the two call shapes used by
the source are `createRow()` (`qi = none`) and `createRow(q, i)`
(`qi = some (q, i)`).  Cells are `Option String` (`none` is JS `null`;
`q.questions[index]` is `none` when out of range, like JS `undefined`). -/
def createRow (a : FAssumption) (key : String) (padded : List (Option String))
    (qi : Option (FQuestion × Nat)) : List (Option String) :=
  [some a.prefixId,
   qi.map (fun x => x.1.prefixId),
   qi.map (fun x => a.pfx ++ "(" ++ a.prefixId ++ "):" ++ x.1.pfx ++ "("
     ++ x.1.prefixId ++ "):" ++ toString (x.2 + 1)),
   some a.value,
   qi.bind (fun x => x.1.questions.get? x.2),
   some key] ++ padded

/-- JS `Array.prototype.map((_, i) => …)` with its running index. -/
def mapIdxAux (f : Nat → α → β) : Nat → List α → List β
  | _, [] => []
  | i, x :: xs => f i x :: mapIdxAux f (i + 1) xs

/-- JS `arr.map(f)` where `f` also receives the element index. -/
def jsMapIdx (f : Nat → α → β) (l : List α) : List β := mapIdxAux f 0 l

/-- The block of rows `doFormatCsv` emits for one assumption: the
assumption-only row, then one row per `(question, sub-question index)`
pair (`a.questions.flatMap(q => q.questions.map((_, i) => createRow(q, i)))`). -/
def rowsForAssumption (maxD : Nat) (a : FAssumption) : List (List (Option String)) :=
  let padded := paddedChain maxD a.container
  let key := containerKey padded
  createRow a key padded none ::
    (a.questions.map (fun q =>
      jsMapIdx (fun i _ => createRow a key padded (some (q, i))) q.questions)).flatten

/-- The fixed header columns plus `container_depth1 … container_depthN`. -/
def csvHeaders (maxD : Nat) : List (Option String) :=
  [some "assumptionId", some "questionId", some "subquestionId",
   some "assumption", some "question", some "container"]
  ++ (List.range maxD).map (fun i => some ("container_depth" ++ toString (i + 1)))

/-- Embedding of `doFormatCsv`.  When `containers.result.all` is empty,
`Math.max()` evaluates to `-Infinity` and `Array(-Infinity)` in the
header construction throws a `RangeError`, so no table is produced
(`none`). -/
def doFormatCsv (all : List (List CInfo)) (asms : List FAssumption) :
    Option (List (List (Option String))) :=
  if all.isEmpty then none
  else
    some (csvHeaders (maxContainerDepth all)
      :: (asms.map (rowsForAssumption (maxContainerDepth all))).flatten)

/-- Concrete example chain (a container `c1` below the phantom/root
placeholder) used to witness flattener theorems. -/
def exChain : List CInfo := [⟨some "c1", some "Group"⟩, ⟨none, none⟩]

/-- Concrete example `all` list used to witness flattener theorems. -/
def exAll : List (List CInfo) := [exChain]

/-- Concrete example assumption list used to witness flattener
theorems. -/
def exAsms : List FAssumption :=
  [{ pfx := "A", prefixId := "auto_1", value := "Widget works",
     container := exChain,
     questions := [{ pfx := "Q", prefixId := "auto_1",
                     questions := ["Does it scale?", "Is it fast?"] }] }]

/- ================================================================
   Part 3: the document model and the edge resolution of
   parseQuestions (src: parseQuestions, lines 278-293)
   ================================================================ -/

/-- An `mxCell` element of the parsed diagram document, with the
attributes the parsers read.  `id` is the DOM `Element.id` property
(the empty string when the attribute is absent); the `getAttribute`
reads are `Option` (`none` is JS `null`); `edge` records whether the
element matches the selector `mxCell[edge="1"]`. -/
structure Elem where
  id : String
  value : Option String
  style : Option String
  edge : Bool
  source : Option String
  target : Option String
  parent : Option String
deriving DecidableEq

/-- A question as seen by the edge-resolution loop: its document node
id and its accumulated `targetIds` (raw attribute values, so `Option`;
the loop can push a `null` target). -/
structure QNode where
  nodeId : String
  targetIds : List (Option String)
deriving DecidableEq

/-- JS object indexing `obj[x]` coerces a `null` index to the string
key "null". -/
def jsKey : Option String → String
  | none => "null"
  | some s => s

/-- Whether `keyBy(questionNodes, q => q.nodeId)` has an entry for `k`. -/
def hasKey (qs : List QNode) (k : String) : Bool :=
  qs.any (fun q => q.nodeId == k)

/-- Push `v` onto the `targetIds` of the question selected by
`questionsByNodeId[k]`.  Lodash `keyBy` lets later entries overwrite
earlier ones, so the selected (and mutated) object is the last question
whose `nodeId` is `k`. -/
def pushTargetLast (k : String) (v : Option String) : List QNode → List QNode
  | [] => []
  | q :: rest =>
    if hasKey rest k then q :: pushTargetLast k v rest
    else if q.nodeId == k then { q with targetIds := q.targetIds ++ [v] } :: rest
    else q :: rest

/-- One iteration of the edge loop of `parseQuestions`: if the edge's
`source` is a known question node id, push the `target` onto that
question's `targetIds`; otherwise if the `target` is a known question
node id, push the `source`; otherwise ignore the edge. -/
def processEdge (qs : List QNode) (e : Elem) : List QNode :=
  if hasKey qs (jsKey e.source) then pushTargetLast (jsKey e.source) e.target qs
  else if hasKey qs (jsKey e.target) then pushTargetLast (jsKey e.target) e.source qs
  else qs

/-- The whole edge loop: `for (const node of document.querySelectorAll(
'mxCell[edge="1"]'))`, folding `processEdge` over the document's edge
elements in document order. -/
def resolveEdges (qs : List QNode) (doc : List Elem) : List QNode :=
  (doc.filter (fun e => e.edge)).foldl processEdge qs

/-- Concrete question list used to witness the edge theorems. -/
def exQs : List QNode := [⟨"q1", []⟩]

/-- Concrete edge element used to witness the edge theorems. -/
def exEdgeQA : Elem :=
  { id := "e1", value := none, style := none, edge := true,
    source := some "q1", target := some "a1", parent := none }

/- ================================================================
   Part 4: the container extractor (src: parseContainers)
   ================================================================ -/

/-- A parent reference of a container tree node: the synthetic
`containerRoot` object, or the cache entry with the given key. -/
inductive PRef where
  | root : PRef
  | key : String → PRef
deriving DecidableEq

/-- A container tree node (`createNode()` of `parseContainers`): all
fields start out `null`/empty.  Object references (`parent`, the
`children` entries) are represented by cache keys; the back-reference
to the DOM element (`node`) carries no extra information beyond
`nodeId` and is omitted. -/
structure CNode where
  nodeId : Option String := none
  value : Option String := none
  parent : Option PRef := none
  children : List String := []
deriving DecidableEq

/-- Substring test on char lists (CSS `[style*="…"]`). -/
def hasSubstrAux (pat : List Char) : List Char → Bool
  | [] => pat.isPrefixOf ([] : List Char)
  | c :: rest => pat.isPrefixOf (c :: rest) || hasSubstrAux pat rest

/-- Substring test on strings (CSS `[style*="…"]`, case-sensitive). -/
def hasSubstr (s pat : String) : Bool := hasSubstrAux pat.toList s.toList

/-- The selection `document.querySelectorAll('mxCell[style*="container=1"]')
.filter(node => node.id)`: style attribute present and containing
`container=1`, and a truthy (non-empty) element id. -/
def isContainerElem (e : Elem) : Bool :=
  (match e.style with
   | none => false
   | some s => hasSubstr s "container=1") && !(e.id == "")

/-- The container elements of a document, in document order. -/
def containerElems (doc : List Elem) : List Elem := doc.filter isContainerElem

/-- `containerNodeIds` (as a list; only membership is consulted). -/
def containerIds (doc : List Elem) : List String :=
  (containerElems doc).map (fun e => e.id)

/-- The mutable state of `parseContainers`: the synthetic root's
`children` list and the insertion-ordered `containerCache`. -/
structure CState where
  rootChildren : List String := []
  cache : List (String × CNode) := []
deriving DecidableEq

/-- `containerCache[k]`. -/
def cacheLookup (c : List (String × CNode)) (k : String) : Option CNode :=
  match c.find? (fun p => p.1 == k) with
  | none => none
  | some p => some p.2

/-- Mutate the cache entry with key `k` in place. -/
def cacheUpdate (c : List (String × CNode)) (k : String) (f : CNode → CNode) :
    List (String × CNode) :=
  c.map (fun p => if p.1 == k then (p.1, f p.2) else p)

/-- `if (!containerCache[k]) containerCache[k] = createNode()`. -/
def cacheEnsure (c : List (String × CNode)) (k : String) : List (String × CNode) :=
  match cacheLookup c k with
  | some _ => c
  | none => c ++ [(k, {})]

/-- `connectNodes(containerRoot, child)`: push onto the root's
`children`, set the child's `parent` to the root. -/
def connectRoot (st : CState) (childKey : String) : CState :=
  { rootChildren := st.rootChildren ++ [childKey],
    cache := cacheUpdate st.cache childKey (fun n => { n with parent := some PRef.root }) }

/-- `connectNodes(containerCache[parentKey], child)`: push onto the
parent's `children`, set the child's `parent`. -/
def connectToKey (st : CState) (parentKey childKey : String) : CState :=
  { rootChildren := st.rootChildren,
    cache := cacheUpdate
      (cacheUpdate st.cache parentKey
        (fun n => { n with children := n.children ++ [childKey] }))
      childKey (fun n => { n with parent := some (PRef.key parentKey) }) }

/-- The `if (!containerCache[node.id]) … createNode()` plus the
`currTreeNode.node/nodeId/value = …` population of one loop iteration. -/
def populateNode (st : CState) (n : Elem) : CState :=
  { st with
    cache := (cacheUpdate (cacheEnsure st.cache n.id) n.id
      (fun t => { t with nodeId := some n.id, value := some (n.value.getD "") })) }

/-- `!parentId || !containerNodeIds.has(parentId)`: the declared parent
id is falsy (absent or empty) or not a container id. -/
def rootAttachFlag (ids : List String) (n : Elem) : Bool :=
  match n.parent with
  | none => true
  | some p => (p == "") || !(ids.contains p)

/-- The JS object key `containerCache[parentId]` indexes with: a `null`
attribute coerces to the string key "null". -/
def parentKeyOf (n : Elem) : String :=
  match n.parent with
  | none => "null"
  | some p => p

/-- One iteration of the `containerNodes.forEach` loop of
`parseContainers`: ensure a tree node for the element's id and populate
its `nodeId`/`value`; attach it to the synthetic root when the declared
parent id is falsy or not a container id; then unconditionally ensure a
(placeholder) node for the parent key and attach the node to it as
well. -/
def parseContainersStep (ids : List String) (st : CState) (n : Elem) : CState :=
  let st2 := populateNode st n
  let st3 := if rootAttachFlag ids n then connectRoot st2 n.id else st2
  let st4 : CState := { st3 with cache := cacheEnsure st3.cache (parentKeyOf n) }
  connectToKey st4 (parentKeyOf n) n.id

/-- The full first (and only) pass of `parseContainers`. -/
def parseContainersState (doc : List Elem) : CState :=
  (containerElems doc).foldl (parseContainersStep (containerIds doc)) {}

/-- `Object.values(containerCache)` in insertion order (the `all` field
of the `parseContainers` result). -/
def parseContainersAll (doc : List Elem) : List CNode :=
  (parseContainersState doc).cache.map (fun p => p.2)

/-- The final `parent` reference of the tree node with key `k`. -/
def parentOfC (c : List (String × CNode)) (k : String) : Option PRef :=
  match cacheLookup c k with
  | none => none
  | some n => n.parent

/-- Whether `k` occurs in the `children` of the cache entry `q`. -/
def childMemC (c : List (String × CNode)) (q k : String) : Prop :=
  match cacheLookup c q with
  | none => False
  | some n => k ∈ n.children

/-- Concrete outer container element used to witness the container
theorems. -/
def exCDocOuter : Elem :=
  { id := "c0", value := some "Outer", style := some "rounded=0;container=1;",
    edge := false, source := none, target := none, parent := none }

/-- Concrete inner container element (parented to `c0`) used to witness
the container theorems. -/
def exCDocInner : Elem :=
  { id := "c1", value := some "Group", style := some "container=1",
    edge := false, source := none, target := none, parent := some "c0" }

/-- Concrete two-container document used to witness the container
theorems. -/
def exCDoc : List Elem := [exCDocOuter, exCDocInner]

/- ================================================================
   Part 5: the prefix extractor (src: genPrefixRegexp,
   extractPrefixFromNode, createIdGen, createParserForPrefixedNode,
   findPrefixedNodes)
   ================================================================ -/

/-- JS regex `\w`: `[A-Za-z0-9_]`. -/
def isWordChar (c : Char) : Bool :=
  decide (('a' ≤ c ∧ c ≤ 'z') ∨ ('A' ≤ c ∧ c ≤ 'Z') ∨ ('0' ≤ c ∧ c ≤ '9') ∨ c = '_')

/-- JS regex `\s` (ECMAScript WhiteSpace ∪ LineTerminator). -/
def isJsSpace (c : Char) : Bool :=
  decide (c = ' ' ∨ c = '\t' ∨ c = '\n' ∨ c.val = 11 ∨ c.val = 12 ∨ c = '\r'
    ∨ c.val = 0xA0 ∨ c.val = 0x1680 ∨ (0x2000 ≤ c.val ∧ c.val ≤ 0x200A)
    ∨ c.val = 0x2028 ∨ c.val = 0x2029 ∨ c.val = 0x202F ∨ c.val = 0x205F
    ∨ c.val = 0x3000 ∨ c.val = 0xFEFF)

/-- The characters a JS regex `.` (without the `s` flag) does not
match: the ECMAScript LineTerminator set. -/
def isJsLineTerm (c : Char) : Bool :=
  decide (c = '\n' ∨ c = '\r' ∨ c.val = 0x2028 ∨ c.val = 0x2029)

/-- Case-insensitive literal match (JS `i` flag, ASCII simple folding;
the prefixes used are "A" and "Q").  Returns the remainder after the
matched literal. -/
def matchCI : List Char → List Char → Option (List Char)
  | [], l => some l
  | _ :: _, [] => none
  | t :: ts, c :: cs => if t.toLower = c.toLower then matchCI ts cs else none

/-- The `:\s*` tail of `genPrefixRegexp`: a literal colon followed by
greedy whitespace. -/
def contColon : List Char → Option (List Char)
  | ':' :: r => some (r.dropWhile isJsSpace)
  | _ => none

/-- Match `P(?:\((\w+)\))?:\s*` at the head of `l` (the anchor `(?:^|>)`
has already been consumed by the caller).  The optional group is tried
greedily: `(`, a non-empty `\w+` run, `)`, then the continuation `:`;
if anything in that attempt fails the group is dropped and `:` must
follow the prefix directly (a `(` head then fails, as in the JS
backtracking).  Returns the captured id (if any) and the remainder
after the match. -/
def matchAfterAnchor (tag : List Char) (l : List Char) :
    Option (Option (List Char) × List Char) :=
  match matchCI tag l with
  | none => none
  | some l1 =>
    let withGroup : Option (Option (List Char) × List Char) :=
      match l1 with
      | '(' :: l2 =>
        let ws := l2.takeWhile isWordChar
        if ws.isEmpty then none
        else
          match l2.drop ws.length with
          | ')' :: l3 =>
            match contColon l3 with
            | some r => some (some ws, r)
            | none => none
          | _ => none
      | _ => none
    match withGroup with
    | some res => some res
    | none =>
      match contColon l1 with
      | some r => some (none, r)
      | none => none

/-- Try the regex `(?:^|>)P(?:\((\w+)\))?:\s*` with the match starting
exactly at `s`: the `^` alternative applies only when `s` is the start
of the string (`atStart`), and the `>` alternative consumes a leading
`>`.  Returns the match length and the captured id. -/
def tryAt (tag : List Char) (s : List Char) (atStart : Bool) :
    Option (Nat × Option (List Char)) :=
  match (if atStart then matchAfterAnchor tag s else none) with
  | some (idc, rest) => some (s.length - rest.length, idc)
  | none =>
    match s with
    | '>' :: s1 =>
      match matchAfterAnchor tag s1 with
      | some (idc, rest) => some (1 + (s1.length - rest.length), idc)
      | none => none
    | _ => none

/-- Leftmost match of `genPrefixRegexp(prefix)` (JS `String.match` /
first-occurrence `replace`): scan start positions left to right and
return `(start, length, captured id)` of the first match. -/
def findFirstAux (tag : List Char) : List Char → Bool → Option (Nat × Nat × Option (List Char))
  | s, atStart =>
    match tryAt tag s atStart with
    | some (len, idc) => some (0, len, idc)
    | none =>
      match s with
      | [] => none
      | _ :: rest =>
        match findFirstAux tag rest false with
        | some (st, len, idc) => some (st + 1, len, idc)
        | none => none

/-- `value.replace(idRegex, '')` (non-global regex: first match only). -/
def replaceFirstTag (tag : List Char) (s : List Char) : List Char :=
  match findFirstAux tag s true with
  | none => s
  | some (st, len, _) => s.take st ++ s.drop (st + len)

/-- The lazy `.*?>` tail of the font/span regex: distance to the first
`>` reachable without crossing a line terminator. -/
def fsFindGt : List Char → Option Nat
  | [] => none
  | c :: r =>
    if c = '>' then some 0
    else if isJsLineTerm c then none
    else
      match fsFindGt r with
      | some n => some (n + 1)
      | none => none

/-- Match `(?:font|span)\s*.*?>` at `s` (case-sensitive); the greedy
`\s*` always consumes the whole whitespace run — if no `>` is reachable
from there before a line terminator, shorter whitespace runs cannot
reach one either, so no backtracking is observable.  Returns the
remainder after the `>`. -/
def fsTagMatch (s : List Char) : Option (List Char) :=
  let afterTag : Option (List Char) :=
    if ("font".toList).isPrefixOf s then some (s.drop 4)
    else if ("span".toList).isPrefixOf s then some (s.drop 4)
    else none
  match afterTag with
  | none => none
  | some s2 =>
    let s3 := s2.dropWhile isJsSpace
    match fsFindGt s3 with
    | some n => some (s3.drop (n + 1))
    | none => none

/-- Match the font/span regex `<\/?(?:font|span)\s*.*?>` at a position
whose head character is `c` (rest follows); returns the remainder after
the match. -/
def fsTryAt1 (c : Char) (rest : List Char) : Option (List Char) :=
  if c = '<' then
    match rest with
    | '/' :: r2 => fsTagMatch r2
    | _ => fsTagMatch rest
  else none

theorem fsFindGt_length {l : List Char} {n : Nat} (h : fsFindGt l = some n) :
    n < l.length := by
  induction l generalizing n with
  | nil => simp [fsFindGt] at h
  | cons c r ih =>
    simp only [fsFindGt] at h
    by_cases hgt : c = '>'
    · simp only [hgt, if_true] at h
      cases h
      simp
    · simp only [hgt, if_false] at h
      by_cases hlt : isJsLineTerm c = true
      · simp [hlt] at h
      · simp only [hlt, if_false] at h
        cases hr : fsFindGt r with
        | none => rw [hr] at h; cases h
        | some m =>
          rw [hr] at h
          cases h
          have := ih hr
          simp
          omega

theorem fsTagMatch_length {s r : List Char} (h : fsTagMatch s = some r) :
    r.length ≤ s.length := by
  have key : (match fsFindGt ((s.drop 4).dropWhile isJsSpace) with
      | some n => some (((s.drop 4).dropWhile isJsSpace).drop (n + 1))
      | none => none) = some r → r.length ≤ s.length := by
    intro h2
    cases hg : fsFindGt ((s.drop 4).dropWhile isJsSpace) with
    | none => rw [hg] at h2; cases h2
    | some n =>
      rw [hg] at h2
      cases h2
      have hle2 : ((s.drop 4).dropWhile isJsSpace).length ≤ (s.drop 4).length :=
        (List.dropWhile_sublist isJsSpace).length_le
      have hle3 : (s.drop 4).length ≤ s.length := by simp
      have hle1 : (((s.drop 4).dropWhile isJsSpace).drop (n + 1)).length
          ≤ ((s.drop 4).dropWhile isJsSpace).length := by simp
      omega
  simp only [fsTagMatch] at h
  by_cases h1 : ("font".toList).isPrefixOf s = true
  · simp only [h1, if_true] at h
    exact key h
  · by_cases h2 : ("span".toList).isPrefixOf s = true
    · simp only [h1, h2, if_true, if_false] at h
      exact key h
    · simp only [h1, h2, if_false] at h
      cases h

theorem fsTryAt1_length {c : Char} {rest r : List Char}
    (h : fsTryAt1 c rest = some r) : r.length ≤ rest.length := by
  simp only [fsTryAt1] at h
  by_cases hc : c = '<'
  · simp only [hc, if_true] at h
    split at h
    · rename_i r2
      have := fsTagMatch_length h
      simp only [List.length_cons]
      omega
    · exact fsTagMatch_length h
  · simp [hc] at h

/-- `value.replace(/<\/?(?:font|span)\s*.*?>/g, '')`: global replace,
removing each leftmost match and continuing after it.  The fuel bounds
the number of scan steps; every step consumes at least one character,
so fuel equal to the input length always suffices (the zero-fuel
fallback for a non-empty list is unreachable). -/
def replaceFontSpanFuel : Nat → List Char → List Char
  | _, [] => []
  | 0, l => l
  | fuel + 1, c :: rest =>
    match fsTryAt1 c rest with
    | some r => replaceFontSpanFuel fuel r
    | none => c :: replaceFontSpanFuel fuel rest

/-- The global font/span replace on a value. -/
def replaceFontSpan (s : List Char) : List Char := replaceFontSpanFuel s.length s

/-- Whether the font/span regex matches anywhere in the value. -/
def hasFsMatch : List Char → Bool
  | [] => false
  | c :: rest => (fsTryAt1 c rest).isSome || hasFsMatch rest

/-- The cleanup of `extractPrefixFromNode`:
`value.replace(/<\/?(?:font|span)\s*.*?>/g, '').replace(idRegex, '')`. -/
def cleanupValue (tag : List Char) (s : List Char) : List Char :=
  replaceFirstTag tag (replaceFontSpan s)

/-- String-level cleanup of `extractPrefixFromNode`. -/
def cleanValueStr (tagS : String) (v : String) : String :=
  String.mk (cleanupValue tagS.toList v.toList)

/-- The result record of `extractPrefixFromNode`. -/
structure ExtractResult where
  matched : Bool
  value : String
  rawValue : String
  prefixId : Option String
deriving DecidableEq

/-- Embedding of `extractPrefixFromNode({node, prefix})`.  `hd` is the
external jsdom-based `htmlDecode` capability.  On no regex match the
JS function returns `{match: false, value: '', rawValue: '', prefixId:
null}`; on a match it returns the cleaned value (font/span tags and the
first prefix token stripped), the undecoded `rawValue` and the captured
explicit id (the `\w+` capture is never empty). -/
def extractPrefixFromNode (hd : String → String) (tag : String) (node : Elem) :
    ExtractResult :=
  let rawValue := node.value.getD ""
  let value := hd rawValue
  match findFirstAux tag.toList value.toList true with
  | none => { matched := false, value := "", rawValue := "", prefixId := none }
  | some (_, _, idc) =>
    { matched := true,
      value := String.mk (cleanupValue tag.toList value.toList),
      rawValue := rawValue,
      prefixId := idc.map (fun l => String.mk l) }

/-- The token shape of the auto id generator of
`createParserForPrefixedNode`: `auto_<n>` (`toString` on `Nat` is
`Nat.repr`). -/
def autoIdName (n : Nat) : String := "auto_" ++ Nat.repr n

/-- The `do { idCandidate = idGenFn(autoIdCounter++) } while
(idCache.has(idCandidate))` loop of `createIdGen`, with explicit fuel.
Returns the accepted candidate and the counter after it. -/
def genNextIdFrom : Nat → Nat → List String → Option (String × Nat)
  | 0, _, _ => none
  | fuel + 1, ctr, cache =>
    let cand := autoIdName ctr
    if cand ∈ cache then genNextIdFrom fuel (ctr + 1) cache
    else some (cand, ctr + 1)

/-- `genNextId()` of `createIdGen`: `cache.length + 1` candidates always
contain a fresh one (the `auto_<n>` names are pairwise distinct), so
the fuelled search never fails; the fallback branch is dead code. -/
def genNextAutoId (ctr : Nat) (cache : List String) : String × Nat :=
  match genNextIdFrom (cache.length + 1) ctr cache with
  | some r => r
  | none => (autoIdName ctr, ctr + 1)

/-- An entity produced by `findPrefixedNodes`. -/
structure PrefixedNode where
  node : Elem
  nodeId : String
  pfx : String
  prefixId : String
  value : String
  rawValue : String
deriving DecidableEq

/-- The reduce loop of `findPrefixedNodes` with the mutable state of
`createParserForPrefixedNode` (the `seenIds` set, shared by explicit
and auto ids, and the auto counter) passed explicitly.  Elements
without a `value` attribute are not selected by `mxCell[value]`;
elements with a falsy (empty) `id` are skipped; a duplicate explicit id
throws (`Except.error`), aborting the whole extraction. -/
def findPrefixedNodesAux (hd : String → String) (tag : String) :
    List Elem → List String → Nat → Except String (List PrefixedNode)
  | [], _, _ => Except.ok []
  | n :: rest, seen, ctr =>
    match n.value with
    | none => findPrefixedNodesAux hd tag rest seen ctr
    | some _ =>
      if n.id = "" then findPrefixedNodesAux hd tag rest seen ctr
      else
        let e := extractPrefixFromNode hd tag n
        if e.matched = false then findPrefixedNodesAux hd tag rest seen ctr
        else
          match e.prefixId with
          | some pid =>
            if pid ∈ seen then
              Except.error ("Found duplicate Node with prefix \"" ++ tag ++ "("
                ++ pid ++ ")\"")
            else
              (findPrefixedNodesAux hd tag rest (pid :: seen) ctr).map
                (fun l => { node := n, nodeId := n.id, pfx := tag, prefixId := pid,
                            value := e.value, rawValue := e.rawValue } :: l)
          | none =>
            let g := genNextAutoId ctr seen
            (findPrefixedNodesAux hd tag rest (g.1 :: seen) g.2).map
              (fun l => { node := n, nodeId := n.id, pfx := tag, prefixId := g.1,
                          value := e.value, rawValue := e.rawValue } :: l)

/-- `findPrefixedNodes({document, prefix})`: one extraction pass with a
fresh id state (`autoIdCounter` starts at 1, `seenIds` empty). -/
def findPrefixedNodes (hd : String → String) (tag : String) (doc : List Elem) :
    Except String (List PrefixedNode) :=
  findPrefixedNodesAux hd tag doc [] 1

/-- The explicit id a node declares for a given prefix, when the node
is selected (has a `value` attribute and a non-empty `id`) and its
decoded value matches the prefix pattern with a captured id. -/
def explicitIdOf (hd : String → String) (tag : String) (n : Elem) : Option String :=
  match n.value with
  | none => none
  | some _ =>
    if n.id = "" then none
    else
      let e := extractPrefixFromNode hd tag n
      if e.matched then e.prefixId else none

/-- A digit character back to its value (inverse of `Nat.digitChar` on
decimal digits). -/
def digitVal (c : Char) : Nat := c.toNat - '0'.toNat

/-- Decode a most-significant-first decimal digit list. -/
def decodeDigits : List Char → Nat → Nat
  | [], acc => acc
  | c :: r, acc => decodeDigits r (acc * 10 + digitVal c)

/-- Concrete documents used to witness the prefix-extractor theorems. -/
def exPrefixDocOk : List Elem :=
  [{ id := "n1", value := some "A: first", style := none, edge := false,
     source := none, target := none, parent := none },
   { id := "n2", value := some "A: second", style := none, edge := false,
     source := none, target := none, parent := none }]

/-- A document with a duplicate explicit id under the prefix "A". -/
def exPrefixDocDup : List Elem :=
  [{ id := "n1", value := some "A(k1): first", style := none, edge := false,
     source := none, target := none, parent := none },
   { id := "n2", value := some "A(k1): second", style := none, edge := false,
     source := none, target := none, parent := none }]

/-- An id-less element whose value matches the prefix grammar. -/
def exIdlessElem : Elem :=
  { id := "", value := some "A: ghost", style := none, edge := false,
    source := none, target := none, parent := none }

/- ================================================================
   THEOREMS AND WITNESSES
   ================================================================ -/

/-- Claim C1: with default options (base64, deflate, urlEncode all
true), decoding the result of encoding `x` returns `x` itself, for
every markup text `x` that survives percent-encoding (i.e. on which the
`uriEncode` stage succeeds, which is implied by `encodeDrawio`
succeeding) — provided the external stage pairs are mutual inverses
(percent, raw-deflate, base64), raw-deflate never turns a non-empty
input into an empty output, and the unwrap step leaves the encoded
payload unchanged (an encoded payload is not an `mxfile` document). -/
theorem decode_encode_roundtrip_default
    (S : CodecStages) (x p : String)
    (hinv_uri : ∀ s t, S.uriEncode s = some t → S.uriDecode t = some s)
    (hinv_defl : ∀ s t, S.deflateRaw s = some t → S.inflateRaw t = some s)
    (hdefl_ne : ∀ s t, s ≠ "" → S.deflateRaw s = some t → t ≠ "")
    (hinv_b64 : ∀ s t, S.btoa s = some t → S.atob t = some s)
    (henc : encodeDrawio S {} x = some p)
    (hunwrap : S.unwrap p = some p) :
    decodeDrawio S {} p = some x := by
  cases hu : S.uriEncode x with
  | none => simp [encodeDrawio, hu] at henc
  | some u =>
    by_cases hue : 0 < u.length
    · -- non-empty percent-encoded data: deflate applies
      cases hd : S.deflateRaw u with
      | none => simp [encodeDrawio, hu, hue, hd] at henc
      | some d =>
        simp [encodeDrawio, hu, hue, hd] at henc
        -- `henc : S.btoa d = some p`
        have hne : u ≠ "" := by
          intro h; rw [h] at hue; simp at hue
        have hdne : d ≠ "" := hdefl_ne u d hne hd
        have hdlen : 0 < d.length := by
          cases d with
          | mk l =>
            cases l with
            | nil => exact absurd rfl hdne
            | cons c cs => simp [String.length]
        simp [decodeDrawio, hunwrap, hinv_b64 d p henc, hdlen,
          hinv_defl u d hd, hinv_uri x u hu]
    · -- empty percent-encoded data: deflate skipped on both sides
      simp [encodeDrawio, hu, hue] at henc
      -- `henc : S.btoa u = some p`
      simp [decodeDrawio, hunwrap, hinv_b64 u p henc, hue, hinv_uri x u hu]

/-- Witness for C1: the round trip evaluated with the identity stages
on the concrete text "abc". -/
theorem decode_encode_roundtrip_default_witness :
    decodeDrawio idStages {} "abc" = some "abc" :=
  decode_encode_roundtrip_default idStages "abc" "abc"
    (fun s t h => by cases h; rfl)
    (fun s t h => by cases h; rfl)
    (fun s t hs h => by cases h; exact hs)
    (fun s t h => by cases h; rfl)
    (by simp [encodeDrawio, idStages])
    rfl

/-- Claim C7: every codec stage failure (unwrap, base64, raw-deflate,
percent-decode on the decode side; percent-encode, raw-deflate, base64
on the encode side) makes `decodeDrawio` / `encodeDrawio` return `null`
(no partial result), and when the data reaching the deflate stage is
empty that stage is skipped: the result is computed without consulting
the inflate/deflate primitive at all. -/
theorem codec_stage_failure_and_empty_skip (S : CodecStages) (opts : CodecOptions)
    (data : String) :
    (S.unwrap data = none → decodeDrawio S opts data = none)
    ∧ (∀ u, S.unwrap data = some u → opts.base64 = true → S.atob u = none →
        decodeDrawio S opts data = none)
    ∧ (∀ u b, S.unwrap data = some u →
        (if opts.base64 then S.atob u else some u) = some b →
        opts.deflate = true → 0 < b.length → S.inflateRaw b = none →
        decodeDrawio S opts data = none)
    ∧ (∀ u b c, S.unwrap data = some u →
        (if opts.base64 then S.atob u else some u) = some b →
        (if opts.deflate = true ∧ 0 < b.length then S.inflateRaw b else some b) = some c →
        opts.urlEncode = true → S.uriDecode c = none →
        decodeDrawio S opts data = none)
    ∧ (∀ u b, S.unwrap data = some u →
        (if opts.base64 then S.atob u else some u) = some b →
        b.length = 0 →
        ∀ f, decodeDrawio S opts data = decodeDrawio { S with inflateRaw := f } opts data)
    ∧ (opts.urlEncode = true → S.uriEncode data = none → encodeDrawio S opts data = none)
    ∧ (∀ u, (if opts.urlEncode then S.uriEncode data else some data) = some u →
        opts.deflate = true → 0 < u.length → S.deflateRaw u = none →
        encodeDrawio S opts data = none)
    ∧ (∀ u b, (if opts.urlEncode then S.uriEncode data else some data) = some u →
        (if opts.deflate = true ∧ 0 < u.length then S.deflateRaw u else some u) = some b →
        opts.base64 = true → S.btoa b = none →
        encodeDrawio S opts data = none)
    ∧ (∀ u, (if opts.urlEncode then S.uriEncode data else some data) = some u →
        u.length = 0 →
        ∀ f, encodeDrawio S opts data = encodeDrawio { S with deflateRaw := f } opts data) := by
  refine ⟨?_, ?_, ?_, ?_, ?_, ?_, ?_, ?_, ?_⟩
  · intro h; simp [decodeDrawio, h]
  · intro u h hb ha; simp [decodeDrawio, h, hb, ha]
  · intro u b h hb hdfl hlen hi
    simp [decodeDrawio, h, hb, hdfl, hlen, hi]
  · intro u b c h hb hc hurl hud
    simp [decodeDrawio, h, hb, hc, hurl, hud]
  · intro u b h hb hlen f
    simp [decodeDrawio, h, hb, hlen]
  · intro hurl h; simp [encodeDrawio, hurl, h]
  · intro u h hdfl hlen hd
    simp [encodeDrawio, h, hdfl, hlen, hd]
  · intro u b h hb hb64 hbt
    simp [encodeDrawio, h, hb, hb64, hbt]
  · intro u h hlen f
    simp [encodeDrawio, h, hlen]

/-- Witness for C7: with stages whose unwrap step fails, decoding the
concrete payload "x" yields `null`; and with the identity stages on the
empty string, the deflate stage is skipped (the result is independent
of the inflate primitive). -/
theorem codec_stage_failure_and_empty_skip_witness :
    decodeDrawio unwrapFailStages {} "x" = none
    ∧ decodeDrawio idStages {} ""
        = decodeDrawio { idStages with inflateRaw := fun _ => none } {} "" :=
  ⟨(codec_stage_failure_and_empty_skip unwrapFailStages {} "x").1 rfl,
   (codec_stage_failure_and_empty_skip idStages {} "").2.2.2.2.1 "" "" rfl rfl rfl
     (fun _ => none)⟩

/- Helper lemmas about the flattener. -/

theorem mapIdxAux_length (f : Nat → α → β) (i : Nat) (l : List α) :
    (mapIdxAux f i l).length = l.length := by
  induction l generalizing i with
  | nil => rfl
  | cons x xs ih => simp [mapIdxAux, ih]

theorem mapIdxAux_index_only (g : Nat → β) (i : Nat) (l : List α) :
    mapIdxAux (fun j _ => g j) i l = (List.range' i l.length).map g := by
  induction l generalizing i with
  | nil => rfl
  | cons x xs ih => simp [mapIdxAux, ih, List.range'_succ]

theorem jsMapIdx_index_only (g : Nat → β) (l : List α) :
    jsMapIdx (fun j _ => g j) l = (List.range l.length).map g := by
  rw [jsMapIdx, mapIdxAux_index_only, List.range_eq_range']

theorem mapIdxAux_mem {f : Nat → α → β} {i : Nat} {l : List α} {b : β}
    (h : b ∈ mapIdxAux f i l) : ∃ j x, b = f j x := by
  induction l generalizing i with
  | nil => simp [mapIdxAux] at h
  | cons x xs ih =>
    simp only [mapIdxAux, List.mem_cons] at h
    rcases h with h | h
    · exact ⟨i, x, h⟩
    · exact ih h

theorem createRow_shape (a : FAssumption) (key : String)
    (padded : List (Option String)) (qi : Option (FQuestion × Nat)) :
    (createRow a key padded qi).length = 6 + padded.length
    ∧ (createRow a key padded qi).drop 6 = padded := by
  constructor
  · simp [createRow]; omega
  · simp [createRow]

theorem rowsForAssumption_mem {maxD : Nat} {a : FAssumption}
    {r : List (Option String)} (h : r ∈ rowsForAssumption maxD a) :
    ∃ qi, r = createRow a (containerKey (paddedChain maxD a.container))
      (paddedChain maxD a.container) qi := by
  simp only [rowsForAssumption, List.mem_cons, List.mem_flatten, List.mem_map] at h
  rcases h with h | ⟨lrow, ⟨q, _, hq⟩, hr⟩
  · exact ⟨none, h⟩
  · subst hq
    obtain ⟨j, x, hx⟩ := mapIdxAux_mem hr
    exact ⟨some (q, j), hx⟩

theorem sum_map_one_add (g : α → Nat) (l : List α) :
    (l.map (fun a => 1 + g a)).sum = l.length + (l.map g).sum := by
  induction l with
  | nil => rfl
  | cons x xs ih => simp [ih]; omega

theorem rowsForAssumption_length (maxD : Nat) (a : FAssumption) :
    (rowsForAssumption maxD a).length
      = 1 + (a.questions.map (fun q => q.questions.length)).sum := by
  simp [rowsForAssumption, List.length_flatten, List.map_map, Function.comp_def,
    jsMapIdx, mapIdxAux_length]
  omega

/-- Claim C10: the flattener is only total when container extraction
produced at least one tree node — `doFormatCsv` yields no table exactly
when the `all` list is empty (then `Math.max()` is `-Infinity` and the
`container_depth` header construction fails), and always yields a
table otherwise. -/
theorem doFormatCsv_none_iff_no_containers (all : List (List CInfo))
    (asms : List FAssumption) :
    doFormatCsv all asms = none ↔ all = [] := by
  cases all with
  | nil => simp [doFormatCsv]
  | cons x xs => simp [doFormatCsv]

/-- Claim C2: the header carries exactly `maxContainerDepth` columns
named `container_depth1 … container_depthN` after the six fixed
columns, where `maxContainerDepth` is the greatest number of ancestors
above any node of the `all` forest (the synthetic root is not part of
any parent chain); and every data row of an assumption carries, after
its six fixed cells, exactly that assumption's container-value chain
(outermost to innermost) right-padded with empty strings to
`maxContainerDepth` cells.  The hypothesis `hch` records the pipeline
invariant that an assumption's chain is never longer than the maximal
depth (its container appears in `all` and every chain tops out in a
placeholder with a `null` id, which contributes depth but no value). -/
theorem doFormatCsv_container_depth_columns (all : List (List CInfo))
    (asms : List FAssumption) (hne : all ≠ [])
    (hch : ∀ a ∈ asms, (chainValues a.container).length ≤ maxContainerDepth all) :
    doFormatCsv all asms
      = some (csvHeaders (maxContainerDepth all)
          :: (asms.map (rowsForAssumption (maxContainerDepth all))).flatten)
    ∧ (csvHeaders (maxContainerDepth all)).length = 6 + maxContainerDepth all
    ∧ (csvHeaders (maxContainerDepth all)).drop 6
        = (List.range (maxContainerDepth all)).map
            (fun i => some ("container_depth" ++ toString (i + 1)))
    ∧ ∀ a ∈ asms, ∀ r ∈ rowsForAssumption (maxContainerDepth all) a,
        r.length = 6 + maxContainerDepth all
        ∧ r.drop 6
            = chainValues a.container
              ++ List.replicate
                  (maxContainerDepth all - (chainValues a.container).length)
                  (some "") := by
  refine ⟨?_, ?_, ?_, ?_⟩
  · simp [doFormatCsv, List.isEmpty_iff, hne]
  · simp [csvHeaders]; omega
  · simp [csvHeaders]
  · intro a ha r hr
    obtain ⟨qi, rfl⟩ := rowsForAssumption_mem hr
    have hsh := createRow_shape a
      (containerKey (paddedChain (maxContainerDepth all) a.container))
      (paddedChain (maxContainerDepth all) a.container) qi
    have hlen : (paddedChain (maxContainerDepth all) a.container).length
        = maxContainerDepth all := by
      have := hch a ha
      simp only [paddedChain, List.length_append, List.length_replicate]
      omega
    refine ⟨by rw [hsh.1, hlen], ?_⟩
    rw [hsh.2]
    rfl

/-- Witness for C2: the header/row column facts evaluated on a concrete
one-container, one-assumption instance. -/
theorem doFormatCsv_container_depth_columns_witness :
    (csvHeaders (maxContainerDepth exAll)).length = 6 + maxContainerDepth exAll :=
  (doFormatCsv_container_depth_columns exAll exAsms (by decide) (by decide)).2.1

/-- Claim C3: for every flattener input, the data rows are, per
assumption in iteration order, one assumption-only row whose
`questionId`/`subquestionId`/`question` cells are all `null`, followed
by one row per `(linked question, sub-question index)` pair in link
order and parse order whose `subquestionId` cell is
`"<assumptionPrefix>(<assumptionId>):<questionPrefix>(<questionId>):<1-based-subindex>"`;
hence the number of data rows is the sum over assumptions of
`1 + sum over linked questions of their sub-question counts`. -/
theorem doFormatCsv_row_order_and_count (all : List (List CInfo))
    (asms : List FAssumption) (hne : all ≠ []) :
    (∃ data, doFormatCsv all asms = some (csvHeaders (maxContainerDepth all) :: data)
      ∧ data = (asms.map (rowsForAssumption (maxContainerDepth all))).flatten
      ∧ data.length
          = (asms.map (fun a => 1 + (a.questions.map
              (fun q => q.questions.length)).sum)).sum)
    ∧ (∀ a, rowsForAssumption (maxContainerDepth all) a
        = createRow a (containerKey (paddedChain (maxContainerDepth all) a.container))
            (paddedChain (maxContainerDepth all) a.container) none
          :: (a.questions.map (fun q => (List.range q.questions.length).map
              (fun i => createRow a
                (containerKey (paddedChain (maxContainerDepth all) a.container))
                (paddedChain (maxContainerDepth all) a.container)
                (some (q, i))))).flatten)
    ∧ (∀ a key padded,
        (createRow a key padded none).get? 1 = some none
        ∧ (createRow a key padded none).get? 2 = some none
        ∧ (createRow a key padded none).get? 4 = some none)
    ∧ (∀ a key padded q i,
        (createRow a key padded (some (q, i))).get? 1 = some (some q.prefixId)
        ∧ (createRow a key padded (some (q, i))).get? 2
            = some (some (a.pfx ++ "(" ++ a.prefixId ++ "):" ++ q.pfx ++ "("
                ++ q.prefixId ++ "):" ++ toString (i + 1)))) := by
  refine ⟨?_, ?_, ?_, ?_⟩
  · refine ⟨(asms.map (rowsForAssumption (maxContainerDepth all))).flatten,
      by simp [doFormatCsv, List.isEmpty_iff, hne], rfl, ?_⟩
    simp [List.length_flatten, List.map_map, Function.comp_def,
      rowsForAssumption_length, sum_map_one_add]
  · intro a
    simp only [rowsForAssumption]
    congr 1
    congr 1
    apply List.map_congr_left
    intro q _
    exact jsMapIdx_index_only _ _
  · intro a key padded
    exact ⟨rfl, rfl, rfl⟩
  · intro a key padded q i
    exact ⟨rfl, rfl⟩

/-- Witness for C3: the row count formula evaluated on a concrete
instance (one assumption, one question with two sub-questions: three
data rows). -/
theorem doFormatCsv_row_order_and_count_witness :
    ∃ data, doFormatCsv exAll exAsms = some (csvHeaders (maxContainerDepth exAll) :: data)
      ∧ data = (exAsms.map (rowsForAssumption (maxContainerDepth exAll))).flatten
      ∧ data.length
          = (exAsms.map (fun a => 1 + (a.questions.map
              (fun q => q.questions.length)).sum)).sum :=
  (doFormatCsv_row_order_and_count exAll exAsms (by decide)).1

/- Helper lemmas about the edge loop. -/

theorem hasKey_eq_false_forall {qs : List QNode} {k : String}
    (h : hasKey qs k = false) : ∀ q ∈ qs, q.nodeId ≠ k := by
  intro q hq
  simp only [hasKey, List.any_eq_false] at h
  have := h q hq
  simpa using this

theorem pushTargetLast_spec (k : String) (v : Option String) (qs : List QNode)
    (h : hasKey qs k = true) :
    ∃ pre q post, qs = pre ++ q :: post ∧ q.nodeId = k
      ∧ (∀ q' ∈ post, q'.nodeId ≠ k)
      ∧ pushTargetLast k v qs
          = pre ++ { q with targetIds := q.targetIds ++ [v] } :: post := by
  induction qs with
  | nil => simp [hasKey] at h
  | cons q rest ih =>
    by_cases hr : hasKey rest k = true
    · obtain ⟨pre, q0, post, heq, hid, hpost, hpush⟩ := ih hr
      refine ⟨q :: pre, q0, post, by simp [heq], hid, hpost, ?_⟩
      simp [pushTargetLast, hr, hpush]
    · have hrf : hasKey rest k = false := by simpa using hr
      have hq : q.nodeId = k := by
        simp only [hasKey, List.any_cons] at h
        simp only [hasKey] at hrf
        rw [hrf] at h
        simpa using h
      refine ⟨[], q, rest, by simp, hq, hasKey_eq_false_forall hrf, ?_⟩
      simp [pushTargetLast, hrf, hq]

/-- Claim C6: for every graph-edge element, (a) if its `source` equals
a known question's node id, the opposite endpoint (`target`) is
appended to that question's `targetIds`; (b) otherwise, if its `target`
equals a known question's node id, the opposite endpoint (`source`) is
appended; (c) an edge matching no question endpoint leaves the
questions unchanged; (d) undirected symmetry: when one endpoint is a
question node id and the other is not, the edges `source=Q,target=A`
and `source=A,target=Q` produce exactly the same update. -/
theorem parseQuestions_edge_resolution (qs : List QNode) (e : Elem) :
    (hasKey qs (jsKey e.source) = true →
      ∃ pre q post, qs = pre ++ q :: post ∧ q.nodeId = jsKey e.source
        ∧ (∀ q' ∈ post, q'.nodeId ≠ jsKey e.source)
        ∧ processEdge qs e
            = pre ++ { q with targetIds := q.targetIds ++ [e.target] } :: post)
    ∧ (hasKey qs (jsKey e.source) = false → hasKey qs (jsKey e.target) = true →
      ∃ pre q post, qs = pre ++ q :: post ∧ q.nodeId = jsKey e.target
        ∧ (∀ q' ∈ post, q'.nodeId ≠ jsKey e.target)
        ∧ processEdge qs e
            = pre ++ { q with targetIds := q.targetIds ++ [e.source] } :: post)
    ∧ (hasKey qs (jsKey e.source) = false → hasKey qs (jsKey e.target) = false →
      processEdge qs e = qs)
    ∧ (∀ qid aid : String, hasKey qs qid = true → hasKey qs aid = false →
        processEdge qs { e with source := some qid, target := some aid }
          = processEdge qs { e with source := some aid, target := some qid }) := by
  refine ⟨?_, ?_, ?_, ?_⟩
  · intro h
    obtain ⟨pre, q, post, heq, hid, hpost, hpush⟩ :=
      pushTargetLast_spec (jsKey e.source) e.target qs h
    exact ⟨pre, q, post, heq, hid, hpost, by simp [processEdge, h, hpush]⟩
  · intro hs ht
    obtain ⟨pre, q, post, heq, hid, hpost, hpush⟩ :=
      pushTargetLast_spec (jsKey e.target) e.source qs ht
    exact ⟨pre, q, post, heq, hid, hpost, by simp [processEdge, hs, ht, hpush]⟩
  · intro hs ht
    simp [processEdge, hs, ht]
  · intro qid aid hq ha
    simp [processEdge, jsKey, hq, ha]

/-- Witness for C6: on a single question `q1`, the edges `q1 → a1` and
`a1 → q1` produce the same update. -/
theorem parseQuestions_edge_resolution_witness :
    processEdge exQs { exEdgeQA with source := some "q1", target := some "a1" }
      = processEdge exQs { exEdgeQA with source := some "a1", target := some "q1" } :=
  (parseQuestions_edge_resolution exQs exEdgeQA).2.2.2 "q1" "a1" (by decide) (by decide)

/- Helper lemmas about the container cache. -/

theorem cacheLookup_nil (k : String) : cacheLookup [] k = none := rfl

theorem cacheLookup_append_single_ne (c : List (String × CNode)) (k k' : String)
    (nd : CNode) (h : k' ≠ k) :
    cacheLookup (c ++ [(k, nd)]) k' = cacheLookup c k' := by
  induction c with
  | nil =>
    have hb : (k == k') = false := by simpa using fun hc => h hc.symm
    simp [cacheLookup, List.find?, hb]
  | cons p rest ih =>
    rcases p with ⟨pk, pn⟩
    by_cases hpk : pk = k'
    · subst hpk
      simp [cacheLookup, List.find?]
    · have hb : (pk == k') = false := by simpa using hpk
      simp only [List.cons_append, cacheLookup, List.find?, hb,
        Bool.false_eq_true, if_false]
      exact ih

theorem cacheLookup_append_single_eq (c : List (String × CNode)) (k : String)
    (nd : CNode) (h : cacheLookup c k = none) :
    cacheLookup (c ++ [(k, nd)]) k = some nd := by
  induction c with
  | nil => simp [cacheLookup, List.find?]
  | cons p rest ih =>
    rcases p with ⟨pk, pn⟩
    cases hb : (pk == k) with
    | true => simp [cacheLookup, List.find?, hb] at h
    | false =>
      simp only [cacheLookup, List.find?, hb, Bool.false_eq_true, if_false] at h
      simp only [List.cons_append, cacheLookup, List.find?, hb,
        Bool.false_eq_true, if_false]
      exact ih h

theorem cacheLookup_update_eq (c : List (String × CNode)) (k : String)
    (f : CNode → CNode) :
    cacheLookup (cacheUpdate c k f) k = (cacheLookup c k).map f := by
  induction c with
  | nil => rfl
  | cons p rest ih =>
    rcases p with ⟨pk, pn⟩
    simp only [cacheUpdate, List.map_cons] at ih ⊢
    cases hb : (pk == k) with
    | true =>
      simp [cacheLookup, List.find?, hb]
    | false =>
      simp only [cacheLookup, List.find?, hb, Bool.false_eq_true, if_false]
      exact ih

theorem cacheLookup_update_ne (c : List (String × CNode)) (k k' : String)
    (f : CNode → CNode) (h : k' ≠ k) :
    cacheLookup (cacheUpdate c k f) k' = cacheLookup c k' := by
  induction c with
  | nil => rfl
  | cons p rest ih =>
    rcases p with ⟨pk, pn⟩
    simp only [cacheUpdate, List.map_cons] at ih ⊢
    cases hbk : (pk == k) with
    | true =>
      have hpk : pk = k := by simpa using hbk
      have hb : (pk == k') = false := by
        subst hpk
        simpa using fun hc => h hc.symm
      simp only [hbk, if_true, cacheLookup, List.find?, hb,
        Bool.false_eq_true, if_false]
      exact ih
    | false =>
      cases hb' : (pk == k') with
      | true =>
        simp [hbk, cacheLookup, List.find?, hb']
      | false =>
        simp only [hbk, Bool.false_eq_true, if_false, cacheLookup,
          List.find?, hb']
        exact ih

theorem cacheLookup_ensure_ne (c : List (String × CNode)) (k k' : String)
    (h : k' ≠ k) :
    cacheLookup (cacheEnsure c k) k' = cacheLookup c k' := by
  unfold cacheEnsure
  cases hc : cacheLookup c k with
  | some n => rfl
  | none => exact cacheLookup_append_single_ne c k k' {} h

theorem cacheLookup_ensure_eq (c : List (String × CNode)) (k : String) :
    cacheLookup (cacheEnsure c k) k = some ((cacheLookup c k).getD {}) := by
  unfold cacheEnsure
  cases hc : cacheLookup c k with
  | some n => simp [hc]
  | none => simpa using cacheLookup_append_single_eq c k {} hc

theorem parentOfC_update_ne (c : List (String × CNode)) (k k' : String)
    (f : CNode → CNode) (h : k' ≠ k) :
    parentOfC (cacheUpdate c k f) k' = parentOfC c k' := by
  simp [parentOfC, cacheLookup_update_ne c k k' f h]

theorem parentOfC_update_preserve (c : List (String × CNode)) (k k' : String)
    (f : CNode → CNode) (hf : ∀ n, (f n).parent = n.parent) :
    parentOfC (cacheUpdate c k f) k' = parentOfC c k' := by
  by_cases h : k' = k
  · subst h
    simp only [parentOfC, cacheLookup_update_eq]
    cases cacheLookup c k' with
    | none => rfl
    | some n => simp [hf]
  · exact parentOfC_update_ne c k k' f h

theorem parentOfC_update_set (c : List (String × CNode)) (k : String)
    (x : PRef) (nd : CNode) (h : cacheLookup c k = some nd) :
    parentOfC (cacheUpdate c k (fun n => { n with parent := some x })) k = some x := by
  simp [parentOfC, cacheLookup_update_eq, h]

theorem parentOfC_ensure (c : List (String × CNode)) (k k' : String) :
    parentOfC (cacheEnsure c k) k' = parentOfC c k' := by
  by_cases h : k' = k
  · subst h
    simp only [parentOfC, cacheLookup_ensure_eq]
    cases hc : cacheLookup c k' with
    | none => simp [hc, CNode.parent]
    | some n => simp [hc]
  · simp [parentOfC, cacheLookup_ensure_ne c k k' h]

theorem childMemC_update_ne (c : List (String × CNode)) (k q k' : String)
    (f : CNode → CNode) (h : q ≠ k) :
    childMemC (cacheUpdate c k f) q k' ↔ childMemC c q k' := by
  simp [childMemC, cacheLookup_update_ne c k q f h]

theorem childMemC_update_preserve (c : List (String × CNode)) (k q k' : String)
    (f : CNode → CNode) (hf : ∀ n, (f n).children = n.children) :
    childMemC (cacheUpdate c k f) q k' ↔ childMemC c q k' := by
  by_cases h : q = k
  · subst h
    simp only [childMemC, cacheLookup_update_eq]
    cases cacheLookup c q with
    | none => simp
    | some n => simp [hf]
  · exact childMemC_update_ne c k q k' f h

theorem childMemC_ensure (c : List (String × CNode)) (k q k' : String) :
    childMemC (cacheEnsure c k) q k' ↔ childMemC c q k' := by
  by_cases h : q = k
  · subst h
    simp only [childMemC, cacheLookup_ensure_eq]
    cases hc : cacheLookup c q with
    | none => simp [hc, CNode.children]
    | some n => simp [hc]
  · simp [childMemC, cacheLookup_ensure_ne c k q h]

theorem childMemC_append_other (c : List (String × CNode)) (pk ck q k' : String)
    (hne : k' ≠ ck) :
    childMemC (cacheUpdate c pk (fun n => { n with children := n.children ++ [ck] })) q k'
      ↔ childMemC c q k' := by
  by_cases h : q = pk
  · subst h
    simp only [childMemC, cacheLookup_update_eq]
    cases hc : cacheLookup c q with
    | none => simp
    | some n => simp [List.mem_append, hne]
  · exact childMemC_update_ne c pk q k' _ h

theorem childMemC_update_append (c : List (String × CNode)) (k ck : String)
    (nd : CNode) (h : cacheLookup c k = some nd) :
    childMemC (cacheUpdate c k (fun n => { n with children := n.children ++ [ck] })) k ck := by
  simp [childMemC, cacheLookup_update_eq, h, List.mem_append]

theorem populateNode_obs (st : CState) (n : Elem) (k : String) :
    parentOfC (populateNode st n).cache k = parentOfC st.cache k
    ∧ (populateNode st n).rootChildren = st.rootChildren
    ∧ ∀ q k', childMemC (populateNode st n).cache q k' ↔ childMemC st.cache q k' := by
  refine ⟨?_, rfl, ?_⟩
  · simp only [populateNode]
    rw [parentOfC_update_preserve _ _ _
      (fun t => { t with nodeId := some n.id, value := some (n.value.getD "") })
      (fun t => rfl)]
    exact parentOfC_ensure _ _ _
  · intro q k'
    simp only [populateNode]
    rw [childMemC_update_preserve _ _ _ _
      (fun t => { t with nodeId := some n.id, value := some (n.value.getD "") })
      (fun t => rfl)]
    exact childMemC_ensure _ _ _ _

theorem connectRoot_foreign (st : CState) (ck k : String) (hne : k ≠ ck) :
    parentOfC (connectRoot st ck).cache k = parentOfC st.cache k
    ∧ ((k ∈ (connectRoot st ck).rootChildren) ↔ k ∈ st.rootChildren)
    ∧ ∀ q k', childMemC (connectRoot st ck).cache q k' ↔ childMemC st.cache q k' := by
  refine ⟨?_, ?_, ?_⟩
  · simp only [connectRoot]
    exact parentOfC_update_ne _ _ _ _ hne
  · simp only [connectRoot, List.mem_append, List.mem_singleton]
    constructor
    · rintro (h | h)
      · exact h
      · exact absurd h hne
    · exact fun h => Or.inl h
  · intro q k'
    simp only [connectRoot]
    exact childMemC_update_preserve _ _ _ _
      (fun n => { n with parent := some PRef.root }) (fun t => rfl)

theorem connectToKey_foreign (st : CState) (pk ck k : String) (hne : k ≠ ck) :
    parentOfC (connectToKey st pk ck).cache k = parentOfC st.cache k
    ∧ (connectToKey st pk ck).rootChildren = st.rootChildren
    ∧ ∀ q, childMemC (connectToKey st pk ck).cache q k ↔ childMemC st.cache q k := by
  refine ⟨?_, rfl, ?_⟩
  · simp only [connectToKey]
    rw [parentOfC_update_ne _ _ _ _ hne]
    exact parentOfC_update_preserve _ _ _
      (fun n => { n with children := n.children ++ [ck] }) (fun t => rfl)
  · intro q
    simp only [connectToKey]
    rw [childMemC_update_preserve _ _ _ _
      (fun n => { n with parent := some (PRef.key pk) }) (fun t => rfl)]
    exact childMemC_append_other _ _ _ _ _ hne

theorem parseContainersStep_foreign (ids : List String) (st : CState) (m : Elem)
    (k : String) (hne : k ≠ m.id) :
    parentOfC (parseContainersStep ids st m).cache k = parentOfC st.cache k
    ∧ ((k ∈ (parseContainersStep ids st m).rootChildren) ↔ k ∈ st.rootChildren)
    ∧ ∀ q, childMemC (parseContainersStep ids st m).cache q k ↔ childMemC st.cache q k := by
  simp only [parseContainersStep]
  set st2 := populateNode st m with hst2
  set st3 := if rootAttachFlag ids m then connectRoot st2 m.id else st2 with hst3
  set st4 : CState := { st3 with cache := cacheEnsure st3.cache (parentKeyOf m) } with hst4
  have h2 := populateNode_obs st m k
  have h3 : parentOfC st3.cache k = parentOfC st2.cache k
      ∧ ((k ∈ st3.rootChildren) ↔ k ∈ st2.rootChildren)
      ∧ ∀ q, childMemC st3.cache q k ↔ childMemC st2.cache q k := by
    rw [hst3]
    cases rootAttachFlag ids m with
    | true =>
      simp only [if_true]
      have h := connectRoot_foreign st2 m.id k hne
      exact ⟨h.1, h.2.1, fun q => h.2.2 q k⟩
    | false =>
      simp
  have h4 : parentOfC st4.cache k = parentOfC st3.cache k
      ∧ st4.rootChildren = st3.rootChildren
      ∧ ∀ q, childMemC st4.cache q k ↔ childMemC st3.cache q k := by
    rw [hst4]
    exact ⟨parentOfC_ensure _ _ _, rfl, fun q => childMemC_ensure _ _ _ _⟩
  have h5 := connectToKey_foreign st4 (parentKeyOf m) m.id k hne
  refine ⟨h5.1.trans (h4.1.trans (h3.1.trans h2.1)), ?_, ?_⟩
  · rw [h5.2.1, h4.2.1]
    exact h3.2.1.trans (by rw [h2.2.1])
  · intro q
    exact (h5.2.2 q).trans ((h4.2.2 q).trans ((h3.2.2 q).trans (h2.2.2 q k)))

theorem parseContainersStep_self_resolvable (ids : List String) (st : CState)
    (n : Elem) (p : String)
    (hp : n.parent = some p) (hpne : p ≠ "") (hpin : p ∈ ids) (hpk : p ≠ n.id)
    (hroot : n.id ∉ st.rootChildren)
    (hchild : ∀ q, ¬ childMemC st.cache q n.id) :
    parentOfC (parseContainersStep ids st n).cache n.id = some (PRef.key p)
    ∧ n.id ∉ (parseContainersStep ids st n).rootChildren
    ∧ childMemC (parseContainersStep ids st n).cache p n.id
    ∧ ∀ q, q ≠ p → ¬ childMemC (parseContainersStep ids st n).cache q n.id := by
  have hc : ids.contains p = true := List.elem_eq_true_of_mem hpin
  have hb : (p == "") = false := by simpa using hpne
  have hflag : rootAttachFlag ids n = false := by
    simp [rootAttachFlag, hp, hb, hc, hpin]
  have hpkey : parentKeyOf n = p := by simp [parentKeyOf, hp]
  simp only [parseContainersStep, hflag, Bool.false_eq_true, if_false, hpkey]
  set st2 := populateNode st n with hst2
  set st4 : CState := { st2 with cache := cacheEnsure st2.cache p } with hst4
  have hnid : n.id ≠ p := fun hc2 => hpk hc2.symm
  have hex2 : ∃ nd, cacheLookup st2.cache n.id = some nd := by
    rw [hst2]
    simp only [populateNode]
    rw [cacheLookup_update_eq, cacheLookup_ensure_eq]
    exact ⟨_, rfl⟩
  have hex4 : ∃ nd, cacheLookup st4.cache n.id = some nd := by
    obtain ⟨nd, hnd⟩ := hex2
    refine ⟨nd, ?_⟩
    rw [hst4]
    rw [cacheLookup_ensure_ne _ _ _ hnid]
    exact hnd
  have hexp4 : ∃ nd, cacheLookup st4.cache p = some nd := by
    rw [hst4]
    rw [cacheLookup_ensure_eq]
    exact ⟨_, rfl⟩
  have hroot4 : st4.rootChildren = st.rootChildren := by
    rw [hst4, hst2]
    rfl
  refine ⟨?_, ?_, ?_, ?_⟩
  · simp only [connectToKey]
    obtain ⟨nd, hnd⟩ := hex4
    have hnd2 : cacheLookup
        (cacheUpdate st4.cache p (fun m => { m with children := m.children ++ [n.id] }))
        n.id = some nd := by
      rw [cacheLookup_update_ne _ _ _ _ hnid]
      exact hnd
    exact parentOfC_update_set _ _ _ _ hnd2
  · simp only [connectToKey]
    rw [hroot4]
    exact hroot
  · simp only [connectToKey]
    rw [childMemC_update_preserve _ _ _ _
      (fun m => { m with parent := some (PRef.key p) }) (fun t => rfl)]
    obtain ⟨nd, hnd⟩ := hexp4
    exact childMemC_update_append _ _ _ _ hnd
  · intro q hq
    simp only [connectToKey]
    rw [childMemC_update_preserve _ _ _ _
      (fun m => { m with parent := some (PRef.key p) }) (fun t => rfl)]
    rw [childMemC_update_ne _ _ _ _ _ hq]
    rw [childMemC_ensure]
    rw [hst2]
    rw [(populateNode_obs st n n.id).2.2 q n.id]
    exact hchild q

theorem parseContainersStep_self_root (ids : List String) (st : CState) (n : Elem)
    (hflag : rootAttachFlag ids n = true) :
    n.id ∈ (parseContainersStep ids st n).rootChildren := by
  simp only [parseContainersStep, hflag, if_true]
  simp [connectToKey, connectRoot, List.mem_append]

theorem foldl_step_foreign (ids : List String) (l : List Elem) (st : CState)
    (k : String) (hl : ∀ m ∈ l, k ≠ m.id) :
    parentOfC (l.foldl (parseContainersStep ids) st).cache k = parentOfC st.cache k
    ∧ ((k ∈ (l.foldl (parseContainersStep ids) st).rootChildren) ↔ k ∈ st.rootChildren)
    ∧ ∀ q, childMemC (l.foldl (parseContainersStep ids) st).cache q k
        ↔ childMemC st.cache q k := by
  induction l generalizing st with
  | nil => exact ⟨rfl, Iff.rfl, fun q => Iff.rfl⟩
  | cons m rest ih =>
    simp only [List.foldl_cons]
    have h1 := parseContainersStep_foreign ids st m k (hl m (by simp))
    have h2 := ih (parseContainersStep ids st m) (fun x hx => hl x (by simp [hx]))
    exact ⟨h2.1.trans h1.1, h2.2.1.trans h1.2.1, fun q => (h2.2.2 q).trans (h1.2.2 q)⟩

/-- Claim C5: in the forest built by `parseContainers` (assuming the
container elements carry pairwise-distinct ids), every container whose
declared parent id resolves to another container in the set ends up
with exactly one parent, namely that container: its final `parent`
reference is that container's tree node, it is not among the synthetic
root's children, it occurs in the resolved parent's `children`, and it
occurs in no other node's `children`.  And every container whose parent
id is absent, empty, or not a container id in the set is a direct child
of the synthetic root (it occurs in the root's `children`). -/
theorem parseContainers_parent_invariant (doc : List Elem)
    (hnd : (containerIds doc).Nodup) (n : Elem) (hmem : n ∈ containerElems doc) :
    (∀ p, n.parent = some p → p ≠ "" → p ∈ containerIds doc → p ≠ n.id →
        parentOfC (parseContainersState doc).cache n.id = some (PRef.key p)
        ∧ n.id ∉ (parseContainersState doc).rootChildren
        ∧ childMemC (parseContainersState doc).cache p n.id
        ∧ ∀ q, q ≠ p → ¬ childMemC (parseContainersState doc).cache q n.id)
    ∧ ((n.parent = none ∨ n.parent = some ""
          ∨ (∀ p, n.parent = some p → p ∉ containerIds doc)) →
        n.id ∈ (parseContainersState doc).rootChildren) := by
  obtain ⟨pre, post, hsplit⟩ := List.append_of_mem hmem
  have hids : containerIds doc
      = pre.map (fun e => e.id) ++ n.id :: post.map (fun e => e.id) := by
    simp [containerIds, hsplit]
  have hnotmem : n.id ∉ pre.map (fun e => e.id) ∧ n.id ∉ post.map (fun e => e.id) := by
    rw [hids] at hnd
    have h := List.nodup_middle.mp hnd
    rw [List.nodup_cons] at h
    simp only [List.mem_append] at h
    exact ⟨fun hc => h.1 (Or.inl hc), fun hc => h.1 (Or.inr hc)⟩
  have hstate : parseContainersState doc
      = post.foldl (parseContainersStep (containerIds doc))
          (parseContainersStep (containerIds doc)
            (pre.foldl (parseContainersStep (containerIds doc)) {}) n) := by
    simp [parseContainersState, hsplit, List.foldl_append]
  have hpre := foldl_step_foreign (containerIds doc) pre ({} : CState) n.id
    (fun m hm heq => hnotmem.1 (heq ▸ List.mem_map_of_mem _ hm))
  have hroot0 : n.id ∉ (pre.foldl (parseContainersStep (containerIds doc)) {}).rootChildren := by
    intro hcon
    have h := hpre.2.1.mp hcon
    simp [CState.rootChildren] at h
  have hchild0 : ∀ q,
      ¬ childMemC (pre.foldl (parseContainersStep (containerIds doc)) {}).cache q n.id := by
    intro q hcon
    have h := (hpre.2.2 q).mp hcon
    simp [childMemC, cacheLookup, List.find?] at h
  have hpostne : ∀ m ∈ post, n.id ≠ m.id :=
    fun m hm heq => hnotmem.2 (heq ▸ List.mem_map_of_mem _ hm)
  constructor
  · intro p hp hpne hpin hpk
    have hself := parseContainersStep_self_resolvable (containerIds doc)
      (pre.foldl (parseContainersStep (containerIds doc)) {}) n p
      hp hpne hpin hpk hroot0 hchild0
    have hpost := foldl_step_foreign (containerIds doc) post
      (parseContainersStep (containerIds doc)
        (pre.foldl (parseContainersStep (containerIds doc)) {}) n) n.id hpostne
    rw [hstate]
    refine ⟨?_, ?_, ?_, ?_⟩
    · rw [hpost.1]
      exact hself.1
    · intro hcon
      exact hself.2.1 (hpost.2.1.mp hcon)
    · exact (hpost.2.2 p).mpr hself.2.2.1
    · intro q hq hcon
      exact hself.2.2.2 q hq ((hpost.2.2 q).mp hcon)
  · intro hcase
    have hflag : rootAttachFlag (containerIds doc) n = true := by
      rcases hcase with h | h | h
      · simp [rootAttachFlag, h]
      · simp [rootAttachFlag, h]
      · rcases hp : n.parent with _ | p
        · simp [rootAttachFlag, hp]
        · have hnotin := h p hp
          have hcon : (containerIds doc).contains p = false := by
            cases hcb : (containerIds doc).contains p with
            | false => rfl
            | true => exact absurd (List.mem_of_elem_eq_true hcb) hnotin
          simp only [rootAttachFlag, hp]
          rw [hcon]
          simp
    have hself := parseContainersStep_self_root (containerIds doc)
      (pre.foldl (parseContainersStep (containerIds doc)) {}) n hflag
    have hpost := foldl_step_foreign (containerIds doc) post
      (parseContainersStep (containerIds doc)
        (pre.foldl (parseContainersStep (containerIds doc)) {}) n) n.id hpostne
    rw [hstate]
    exact hpost.2.1.mpr hself

/-- Witness for C5: in the two-container document, `c1` (declared
parent `c0`) ends up with `c0` as its unique parent and is not a child
of the synthetic root. -/
theorem parseContainers_parent_invariant_witness :
    parentOfC (parseContainersState exCDoc).cache exCDocInner.id = some (PRef.key "c0")
    ∧ exCDocInner.id ∉ (parseContainersState exCDoc).rootChildren
    ∧ childMemC (parseContainersState exCDoc).cache "c0" exCDocInner.id
    ∧ ∀ q, q ≠ "c0" → ¬ childMemC (parseContainersState exCDoc).cache q exCDocInner.id :=
  (parseContainers_parent_invariant exCDoc (by decide) exCDocInner (by decide)).1
    "c0" rfl (by decide) (by decide) (by decide)

/- Helper lemmas for the prefix extractor. -/

theorem replaceFontSpanFuel_of_no_match :
    ∀ (fuel : Nat) (s : List Char), hasFsMatch s = false →
      replaceFontSpanFuel fuel s = s := by
  intro fuel
  induction fuel with
  | zero => intro s _; cases s <;> rfl
  | succ f ih =>
    intro s h
    cases s with
    | nil => rfl
    | cons c rest =>
      simp only [hasFsMatch, Bool.or_eq_false_iff] at h
      simp only [replaceFontSpanFuel]
      cases heq : fsTryAt1 c rest with
      | some r =>
        rw [heq] at h
        simp at h
      | none => exact congrArg (c :: ·) (ih rest h.2)

theorem replaceFontSpan_of_no_match {s : List Char} (h : hasFsMatch s = false) :
    replaceFontSpan s = s :=
  replaceFontSpanFuel_of_no_match s.length s h

/-- Claim C8 (as stated) is false: the cleanup removes only the first
prefix token, so cleaning the already-cleaned value of "A:A: hi"
removes a second token and changes the value again. -/
theorem cleanup_not_idempotent_counterexample :
    cleanValueStr "A" (cleanValueStr "A" "A:A: hi") ≠ cleanValueStr "A" "A:A: hi" := by
  decide

/-- Claim C8, amended: the cleanup is idempotent only on values free of
residual patterns — for every value in which the font/span tag pattern
does not occur and the prefix pattern does not match (in particular,
for every already-cleaned value whose cleaned form no longer contains a
prefix token or font/span tag), applying the cleanup returns the value
unchanged. -/
theorem cleanValueStr_fixed_point (tagS v : String)
    (hfs : hasFsMatch v.toList = false)
    (hpm : findFirstAux tagS.toList v.toList true = none) :
    cleanValueStr tagS v = v := by
  unfold cleanValueStr cleanupValue
  rw [replaceFontSpan_of_no_match hfs]
  simp only [replaceFirstTag, hpm]
  rfl

/-- Witness for the amended C8: a clean value is a fixed point. -/
theorem cleanValueStr_fixed_point_witness : cleanValueStr "A" "hi" = "hi" :=
  cleanValueStr_fixed_point "A" "hi" (by decide) (by decide)

/- Decimal-representation round trip, used to show the `auto_<n>` names
are pairwise distinct. -/

theorem digitVal_digitChar : ∀ m : Nat, m < 10 → digitVal (Nat.digitChar m) = m := by
  decide

theorem toDigitsCore_append (b : Nat) :
    ∀ (fuel n : Nat) (ds : List Char),
      Nat.toDigitsCore b fuel n ds = Nat.toDigitsCore b fuel n [] ++ ds := by
  intro fuel
  induction fuel with
  | zero => intro n ds; simp [Nat.toDigitsCore]
  | succ f ih =>
    intro n ds
    simp only [Nat.toDigitsCore]
    by_cases h : n / b = 0
    · simp [h]
    · simp only [h, if_false]
      rw [ih (n / b) (Nat.digitChar (n % b) :: ds), ih (n / b) [Nat.digitChar (n % b)]]
      simp

theorem decodeDigits_append (l1 l2 : List Char) (acc : Nat) :
    decodeDigits (l1 ++ l2) acc = decodeDigits l2 (decodeDigits l1 acc) := by
  induction l1 generalizing acc with
  | nil => rfl
  | cons c r ih =>
    simp only [List.cons_append, decodeDigits]
    exact ih _

theorem decode_toDigitsCore :
    ∀ (fuel m acc : Nat), m < 10 ^ fuel → fuel ≠ 0 →
      decodeDigits (Nat.toDigitsCore 10 fuel m []) acc
        = acc * 10 ^ (Nat.toDigitsCore 10 fuel m []).length + m := by
  intro fuel
  induction fuel with
  | zero => intro m acc _ h0; exact absurd rfl h0
  | succ f ih =>
    intro m acc hm _
    by_cases h : m / 10 = 0
    · have hm10 : m < 10 := by omega
      simp only [Nat.toDigitsCore, h, if_true]
      simp only [decodeDigits, List.length_cons, List.length_nil]
      rw [digitVal_digitChar (m % 10) (Nat.mod_lt _ (by norm_num))]
      rw [Nat.mod_eq_of_lt hm10]
      rw [pow_one]
    · have hdiv : m / 10 < 10 ^ f := by
        have h1 : m < 10 ^ f * 10 := by
          rw [← pow_succ]
          exact hm
        omega
      have hf0 : f ≠ 0 := by
        intro h0
        subst h0
        rw [pow_zero] at hdiv
        omega
      simp only [Nat.toDigitsCore, h, if_false]
      rw [toDigitsCore_append 10 f (m / 10) [Nat.digitChar (m % 10)]]
      rw [decodeDigits_append]
      rw [ih (m / 10) acc hdiv hf0]
      simp only [decodeDigits]
      rw [digitVal_digitChar (m % 10) (Nat.mod_lt _ (by norm_num))]
      rw [List.length_append, List.length_cons, List.length_nil]
      have hdm : m / 10 * 10 + m % 10 = m := by omega
      calc (acc * 10 ^ (Nat.toDigitsCore 10 f (m / 10) []).length + m / 10) * 10 + m % 10
          = acc * (10 ^ (Nat.toDigitsCore 10 f (m / 10) []).length * 10)
            + (m / 10 * 10 + m % 10) := by ring
        _ = acc * 10 ^ ((Nat.toDigitsCore 10 f (m / 10) []).length + 1) + m := by
            rw [hdm, pow_succ]

theorem decode_natRepr (n : Nat) : decodeDigits (Nat.repr n).toList 0 = n := by
  have h1 : n < 10 ^ (n + 1) :=
    lt_of_lt_of_le (Nat.lt_pow_self (by norm_num) n)
      (Nat.pow_le_pow_right (by norm_num) (Nat.le_succ n))
  have h2 := decode_toDigitsCore (n + 1) n 0 h1 (Nat.succ_ne_zero n)
  simpa [Nat.repr, Nat.toDigits, List.asString, String.toList] using h2

theorem natRepr_injective : Function.Injective Nat.repr := by
  intro m n h
  have hm := decode_natRepr m
  have hn := decode_natRepr n
  rw [h] at hm
  exact hm.symm.trans hn

theorem autoIdName_injective : Function.Injective autoIdName := by
  intro m n h
  apply natRepr_injective
  have h2 := congrArg String.data h
  simp only [autoIdName, String.data_append] at h2
  exact String.ext (List.append_cancel_left h2)

theorem genNextIdFrom_some_not_mem :
    ∀ (fuel ctr : Nat) (cache : List String) (r : String × Nat),
      genNextIdFrom fuel ctr cache = some r → r.1 ∉ cache := by
  intro fuel
  induction fuel with
  | zero => intro ctr cache r h; cases h
  | succ f ih =>
    intro ctr cache r h
    simp only [genNextIdFrom] at h
    by_cases hc : autoIdName ctr ∈ cache
    · rw [if_pos hc] at h
      exact ih (ctr + 1) cache r h
    · rw [if_neg hc] at h
      cases h
      exact hc

theorem genNextIdFrom_none_all :
    ∀ (fuel ctr : Nat) (cache : List String),
      genNextIdFrom fuel ctr cache = none →
      ∀ k, k < fuel → autoIdName (ctr + k) ∈ cache := by
  intro fuel
  induction fuel with
  | zero => intro ctr cache _ k hk; omega
  | succ f ih =>
    intro ctr cache h k hk
    simp only [genNextIdFrom] at h
    by_cases hc : autoIdName ctr ∈ cache
    · rw [if_pos hc] at h
      cases k with
      | zero => simpa using hc
      | succ j =>
        have := ih (ctr + 1) cache h j (by omega)
        have harr : ctr + 1 + j = ctr + (j + 1) := by omega
        rw [harr] at this
        exact this
    · rw [if_neg hc] at h
      cases h

theorem genNextIdFrom_total (cache : List String) (ctr : Nat) :
    genNextIdFrom (cache.length + 1) ctr cache ≠ none := by
  intro hnone
  have hall := genNextIdFrom_none_all (cache.length + 1) ctr cache hnone
  have hnodup : ((List.range (cache.length + 1)).map
      (fun k => autoIdName (ctr + k))).Nodup := by
    refine List.Nodup.map ?_ (List.nodup_range _)
    intro a b hab
    have := autoIdName_injective hab
    omega
  have hsub : ∀ x ∈ (List.range (cache.length + 1)).map
      (fun k => autoIdName (ctr + k)), x ∈ cache := by
    intro x hx
    obtain ⟨k, hk, rfl⟩ := List.mem_map.mp hx
    exact hall k (List.mem_range.mp hk)
  have h1 : ((List.range (cache.length + 1)).map
      (fun k => autoIdName (ctr + k))).toFinset.card = cache.length + 1 := by
    rw [List.toFinset_card_of_nodup hnodup, List.length_map, List.length_range]
  have h2 : ((List.range (cache.length + 1)).map
      (fun k => autoIdName (ctr + k))).toFinset ⊆ cache.toFinset := by
    intro x hx
    exact List.mem_toFinset.mpr (hsub x (List.mem_toFinset.mp hx))
  have h3 := Finset.card_le_card h2
  have h4 := cache.toFinset_card_le
  omega

theorem genNextAutoId_not_mem (ctr : Nat) (cache : List String) :
    (genNextAutoId ctr cache).1 ∉ cache := by
  unfold genNextAutoId
  cases hg : genNextIdFrom (cache.length + 1) ctr cache with
  | some r => exact genNextIdFrom_some_not_mem _ _ _ _ hg
  | none => exact absurd hg (genNextIdFrom_total cache ctr)

/- Step equations for the reduce loop of findPrefixedNodes. -/

theorem fpnAux_cons_novalue (hd : String → String) (tag : String) (n : Elem)
    (rest : List Elem) (seen : List String) (ctr : Nat) (hv : n.value = none) :
    findPrefixedNodesAux hd tag (n :: rest) seen ctr
      = findPrefixedNodesAux hd tag rest seen ctr := by
  simp [findPrefixedNodesAux, hv]

theorem fpnAux_cons_noid (hd : String → String) (tag : String) (n : Elem)
    (rest : List Elem) (seen : List String) (ctr : Nat) (v : String)
    (hv : n.value = some v) (hid : n.id = "") :
    findPrefixedNodesAux hd tag (n :: rest) seen ctr
      = findPrefixedNodesAux hd tag rest seen ctr := by
  simp [findPrefixedNodesAux, hv, hid]

theorem fpnAux_cons_nomatch (hd : String → String) (tag : String) (n : Elem)
    (rest : List Elem) (seen : List String) (ctr : Nat) (v : String)
    (hv : n.value = some v) (hid : ¬ n.id = "")
    (hm : (extractPrefixFromNode hd tag n).matched = false) :
    findPrefixedNodesAux hd tag (n :: rest) seen ctr
      = findPrefixedNodesAux hd tag rest seen ctr := by
  simp [findPrefixedNodesAux, hv, hid, hm]

theorem fpnAux_cons_explicit_dup (hd : String → String) (tag : String) (n : Elem)
    (rest : List Elem) (seen : List String) (ctr : Nat) (v pid : String)
    (hv : n.value = some v) (hid : ¬ n.id = "")
    (hm : (extractPrefixFromNode hd tag n).matched = true)
    (hpid : (extractPrefixFromNode hd tag n).prefixId = some pid)
    (hseen : pid ∈ seen) :
    findPrefixedNodesAux hd tag (n :: rest) seen ctr
      = Except.error ("Found duplicate Node with prefix \"" ++ tag ++ "("
          ++ pid ++ ")\"") := by
  simp [findPrefixedNodesAux, hv, hid, hm, hpid, hseen]

theorem fpnAux_cons_explicit (hd : String → String) (tag : String) (n : Elem)
    (rest : List Elem) (seen : List String) (ctr : Nat) (v pid : String)
    (hv : n.value = some v) (hid : ¬ n.id = "")
    (hm : (extractPrefixFromNode hd tag n).matched = true)
    (hpid : (extractPrefixFromNode hd tag n).prefixId = some pid)
    (hseen : pid ∉ seen) :
    findPrefixedNodesAux hd tag (n :: rest) seen ctr
      = (findPrefixedNodesAux hd tag rest (pid :: seen) ctr).map
          (fun l => { node := n, nodeId := n.id, pfx := tag, prefixId := pid,
                      value := (extractPrefixFromNode hd tag n).value,
                      rawValue := (extractPrefixFromNode hd tag n).rawValue } :: l) := by
  simp [findPrefixedNodesAux, hv, hid, hm, hpid, hseen]

theorem fpnAux_cons_auto (hd : String → String) (tag : String) (n : Elem)
    (rest : List Elem) (seen : List String) (ctr : Nat) (v : String)
    (hv : n.value = some v) (hid : ¬ n.id = "")
    (hm : (extractPrefixFromNode hd tag n).matched = true)
    (hpid : (extractPrefixFromNode hd tag n).prefixId = none) :
    findPrefixedNodesAux hd tag (n :: rest) seen ctr
      = (findPrefixedNodesAux hd tag rest ((genNextAutoId ctr seen).1 :: seen)
            (genNextAutoId ctr seen).2).map
          (fun l => { node := n, nodeId := n.id, pfx := tag,
                      prefixId := (genNextAutoId ctr seen).1,
                      value := (extractPrefixFromNode hd tag n).value,
                      rawValue := (extractPrefixFromNode hd tag n).rawValue } :: l) := by
  simp [findPrefixedNodesAux, hv, hid, hm, hpid]

theorem findPrefixedNodesAux_nodup (hd : String → String) (tag : String) :
    ∀ (nodes : List Elem) (seen : List String) (ctr : Nat) (l : List PrefixedNode),
      findPrefixedNodesAux hd tag nodes seen ctr = Except.ok l →
      (l.map (fun e => e.prefixId)).Nodup
      ∧ ∀ x ∈ l.map (fun e => e.prefixId), x ∉ seen := by
  intro nodes
  induction nodes with
  | nil =>
    intro seen ctr l h
    simp only [findPrefixedNodesAux] at h
    cases h
    exact ⟨List.nodup_nil, by simp⟩
  | cons n rest ih =>
    intro seen ctr l h
    cases hv : n.value with
    | none =>
      rw [fpnAux_cons_novalue hd tag n rest seen ctr hv] at h
      exact ih seen ctr l h
    | some v =>
      by_cases hid : n.id = ""
      · rw [fpnAux_cons_noid hd tag n rest seen ctr v hv hid] at h
        exact ih seen ctr l h
      · cases hm : (extractPrefixFromNode hd tag n).matched with
        | false =>
          rw [fpnAux_cons_nomatch hd tag n rest seen ctr v hv hid hm] at h
          exact ih seen ctr l h
        | true =>
          cases hpid : (extractPrefixFromNode hd tag n).prefixId with
          | some pid =>
            by_cases hseen : pid ∈ seen
            · rw [fpnAux_cons_explicit_dup hd tag n rest seen ctr v pid
                hv hid hm hpid hseen] at h
              cases h
            · rw [fpnAux_cons_explicit hd tag n rest seen ctr v pid
                hv hid hm hpid hseen] at h
              cases haux : findPrefixedNodesAux hd tag rest (pid :: seen) ctr with
              | error e => rw [haux] at h; cases h
              | ok l2 =>
                rw [haux] at h
                simp only [Except.map] at h
                cases h
                obtain ⟨hnd, hnin⟩ := ih (pid :: seen) ctr l2 haux
                constructor
                · simp only [List.map_cons]
                  refine List.nodup_cons.mpr ⟨?_, hnd⟩
                  intro hmem
                  exact (hnin _ hmem) (by simp)
                · intro x hx
                  simp only [List.map_cons, List.mem_cons] at hx
                  rcases hx with rfl | hx
                  · exact hseen
                  · intro hxseen
                    exact (hnin x hx) (by simp [hxseen])
          | none =>
            rw [fpnAux_cons_auto hd tag n rest seen ctr v hv hid hm hpid] at h
            cases haux : findPrefixedNodesAux hd tag rest
                ((genNextAutoId ctr seen).1 :: seen) (genNextAutoId ctr seen).2 with
            | error e => rw [haux] at h; cases h
            | ok l2 =>
              rw [haux] at h
              simp only [Except.map] at h
              cases h
              obtain ⟨hnd, hnin⟩ := ih ((genNextAutoId ctr seen).1 :: seen)
                (genNextAutoId ctr seen).2 l2 haux
              constructor
              · simp only [List.map_cons]
                refine List.nodup_cons.mpr ⟨?_, hnd⟩
                intro hmem
                exact (hnin _ hmem) (by simp)
              · intro x hx
                simp only [List.map_cons, List.mem_cons] at hx
                rcases hx with rfl | hx
                · exact genNextAutoId_not_mem ctr seen
                · intro hxseen
                  exact (hnin x hx) (by simp [hxseen])

theorem fpnAux_error_of_seen (hd : String → String) (tag : String) :
    ∀ (nodes : List Elem) (seen : List String) (ctr : Nat) (p : String),
      p ∈ seen →
      (∃ j, ∃ hj : j < nodes.length, explicitIdOf hd tag (nodes.get ⟨j, hj⟩) = some p) →
      ∃ msg, findPrefixedNodesAux hd tag nodes seen ctr = Except.error msg := by
  intro nodes
  induction nodes with
  | nil =>
    rintro seen ctr p _ ⟨j, hj, _⟩
    exact absurd hj (by simp)
  | cons n rest ih =>
    rintro seen ctr p hp ⟨j, hj, hex⟩
    cases j with
    | zero =>
      replace hex : explicitIdOf hd tag n = some p := hex
      cases hv : n.value with
      | none => simp [explicitIdOf, hv] at hex
      | some v =>
        by_cases hid : n.id = ""
        · simp [explicitIdOf, hv, hid] at hex
        · cases hm : (extractPrefixFromNode hd tag n).matched with
          | false => simp [explicitIdOf, hv, hid, hm] at hex
          | true =>
            have hpid : (extractPrefixFromNode hd tag n).prefixId = some p := by
              simpa [explicitIdOf, hv, hid, hm] using hex
            exact ⟨_, fpnAux_cons_explicit_dup hd tag n rest seen ctr v p
              hv hid hm hpid hp⟩
    | succ j1 =>
      have hj1 : j1 < rest.length := by
        simpa using Nat.lt_of_succ_lt_succ hj
      replace hex : explicitIdOf hd tag (rest.get ⟨j1, hj1⟩) = some p := hex
      cases hv : n.value with
      | none =>
        obtain ⟨msg, hmsg⟩ := ih seen ctr p hp ⟨j1, hj1, hex⟩
        exact ⟨msg, by rw [fpnAux_cons_novalue hd tag n rest seen ctr hv]; exact hmsg⟩
      | some v =>
        by_cases hid : n.id = ""
        · obtain ⟨msg, hmsg⟩ := ih seen ctr p hp ⟨j1, hj1, hex⟩
          exact ⟨msg, by rw [fpnAux_cons_noid hd tag n rest seen ctr v hv hid]; exact hmsg⟩
        · cases hm : (extractPrefixFromNode hd tag n).matched with
          | false =>
            obtain ⟨msg, hmsg⟩ := ih seen ctr p hp ⟨j1, hj1, hex⟩
            exact ⟨msg, by
              rw [fpnAux_cons_nomatch hd tag n rest seen ctr v hv hid hm]; exact hmsg⟩
          | true =>
            cases hpid : (extractPrefixFromNode hd tag n).prefixId with
            | some pid =>
              by_cases hseen : pid ∈ seen
              · exact ⟨_, fpnAux_cons_explicit_dup hd tag n rest seen ctr v pid
                  hv hid hm hpid hseen⟩
              · obtain ⟨msg, hmsg⟩ := ih (pid :: seen) ctr p (by simp [hp]) ⟨j1, hj1, hex⟩
                refine ⟨msg, ?_⟩
                rw [fpnAux_cons_explicit hd tag n rest seen ctr v pid
                  hv hid hm hpid hseen, hmsg]
                rfl
            | none =>
              obtain ⟨msg, hmsg⟩ := ih ((genNextAutoId ctr seen).1 :: seen)
                (genNextAutoId ctr seen).2 p (by simp [hp]) ⟨j1, hj1, hex⟩
              refine ⟨msg, ?_⟩
              rw [fpnAux_cons_auto hd tag n rest seen ctr v hv hid hm hpid, hmsg]
              rfl

theorem fpnAux_error_of_dup (hd : String → String) (tag : String) :
    ∀ (nodes : List Elem) (seen : List String) (ctr : Nat),
      (∃ i j p, ∃ hi : i < nodes.length, ∃ hj : j < nodes.length, i < j
        ∧ explicitIdOf hd tag (nodes.get ⟨i, hi⟩) = some p
        ∧ explicitIdOf hd tag (nodes.get ⟨j, hj⟩) = some p) →
      ∃ msg, findPrefixedNodesAux hd tag nodes seen ctr = Except.error msg := by
  intro nodes
  induction nodes with
  | nil =>
    rintro seen ctr ⟨i, j, p, hi, _⟩
    exact absurd hi (by simp)
  | cons n rest ih =>
    rintro seen ctr ⟨i, j, p, hi, hj, hij, hexi, hexj⟩
    cases i with
    | zero =>
      replace hexi : explicitIdOf hd tag n = some p := hexi
      cases j with
      | zero => omega
      | succ j1 =>
        have hj1 : j1 < rest.length := by
          simpa using Nat.lt_of_succ_lt_succ hj
        replace hexj : explicitIdOf hd tag (rest.get ⟨j1, hj1⟩) = some p := hexj
        cases hv : n.value with
        | none => simp [explicitIdOf, hv] at hexi
        | some v =>
          by_cases hid : n.id = ""
          · simp [explicitIdOf, hv, hid] at hexi
          · cases hm : (extractPrefixFromNode hd tag n).matched with
            | false => simp [explicitIdOf, hv, hid, hm] at hexi
            | true =>
              have hpid : (extractPrefixFromNode hd tag n).prefixId = some p := by
                simpa [explicitIdOf, hv, hid, hm] using hexi
              by_cases hseen : p ∈ seen
              · exact ⟨_, fpnAux_cons_explicit_dup hd tag n rest seen ctr v p
                  hv hid hm hpid hseen⟩
              · obtain ⟨msg, hmsg⟩ := fpnAux_error_of_seen hd tag rest (p :: seen) ctr p
                  (by simp) ⟨j1, hj1, hexj⟩
                refine ⟨msg, ?_⟩
                rw [fpnAux_cons_explicit hd tag n rest seen ctr v p
                  hv hid hm hpid hseen, hmsg]
                rfl
    | succ i1 =>
      cases j with
      | zero => omega
      | succ j1 =>
        have hi1 : i1 < rest.length := by
          simpa using Nat.lt_of_succ_lt_succ hi
        have hj1 : j1 < rest.length := by
          simpa using Nat.lt_of_succ_lt_succ hj
        replace hexi : explicitIdOf hd tag (rest.get ⟨i1, hi1⟩) = some p := hexi
        replace hexj : explicitIdOf hd tag (rest.get ⟨j1, hj1⟩) = some p := hexj
        have hdup : ∃ i2 j2 p2, ∃ hi2 : i2 < rest.length, ∃ hj2 : j2 < rest.length,
            i2 < j2 ∧ explicitIdOf hd tag (rest.get ⟨i2, hi2⟩) = some p2
            ∧ explicitIdOf hd tag (rest.get ⟨j2, hj2⟩) = some p2 :=
          ⟨i1, j1, p, hi1, hj1, by omega, hexi, hexj⟩
        cases hv : n.value with
        | none =>
          obtain ⟨msg, hmsg⟩ := ih seen ctr hdup
          exact ⟨msg, by rw [fpnAux_cons_novalue hd tag n rest seen ctr hv]; exact hmsg⟩
        | some v =>
          by_cases hid : n.id = ""
          · obtain ⟨msg, hmsg⟩ := ih seen ctr hdup
            exact ⟨msg, by
              rw [fpnAux_cons_noid hd tag n rest seen ctr v hv hid]; exact hmsg⟩
          · cases hm : (extractPrefixFromNode hd tag n).matched with
            | false =>
              obtain ⟨msg, hmsg⟩ := ih seen ctr hdup
              exact ⟨msg, by
                rw [fpnAux_cons_nomatch hd tag n rest seen ctr v hv hid hm]; exact hmsg⟩
            | true =>
              cases hpid : (extractPrefixFromNode hd tag n).prefixId with
              | some pid =>
                by_cases hseen : pid ∈ seen
                · exact ⟨_, fpnAux_cons_explicit_dup hd tag n rest seen ctr v pid
                    hv hid hm hpid hseen⟩
                · obtain ⟨msg, hmsg⟩ := ih (pid :: seen) ctr hdup
                  refine ⟨msg, ?_⟩
                  rw [fpnAux_cons_explicit hd tag n rest seen ctr v pid
                    hv hid hm hpid hseen, hmsg]
                  rfl
              | none =>
                obtain ⟨msg, hmsg⟩ := ih ((genNextAutoId ctr seen).1 :: seen)
                  (genNextAutoId ctr seen).2 hdup
                refine ⟨msg, ?_⟩
                rw [fpnAux_cons_auto hd tag n rest seen ctr v hv hid hm hpid, hmsg]
                rfl

/-- Claim C4: (a) all `prefixId` values returned by one extraction pass
are pairwise distinct; (b) if two selected nodes declare the same
explicit id under the prefix, the extraction fails with a duplicate-id
error (an `Except.error`, so no entities at all are produced for that
prefix). -/
theorem findPrefixedNodes_id_uniqueness (hd : String → String) (tag : String)
    (doc : List Elem) :
    (∀ l, findPrefixedNodes hd tag doc = Except.ok l →
        (l.map (fun e => e.prefixId)).Nodup)
    ∧ ((∃ i j p, ∃ hi : i < doc.length, ∃ hj : j < doc.length, i < j
          ∧ explicitIdOf hd tag (doc.get ⟨i, hi⟩) = some p
          ∧ explicitIdOf hd tag (doc.get ⟨j, hj⟩) = some p) →
        ∃ msg, findPrefixedNodes hd tag doc = Except.error msg) := by
  constructor
  · intro l h
    exact (findPrefixedNodesAux_nodup hd tag doc [] 1 l h).1
  · intro hdup
    exact fpnAux_error_of_dup hd tag doc [] 1 hdup

/-- Witness for C4: a two-node document with auto ids yields pairwise
distinct ids, and a two-node document declaring the explicit id `k1`
twice fails with a duplicate-id error. -/
theorem findPrefixedNodes_id_uniqueness_witness :
    (∃ l, findPrefixedNodes id "A" exPrefixDocOk = Except.ok l
        ∧ (l.map (fun e => e.prefixId)).Nodup)
    ∧ (∃ msg, findPrefixedNodes id "A" exPrefixDocDup = Except.error msg) := by
  constructor
  · have h : findPrefixedNodes id "A" exPrefixDocOk = Except.ok
        [{ node := { id := "n1", value := some "A: first", style := none,
                     edge := false, source := none, target := none, parent := none },
           nodeId := "n1", pfx := "A", prefixId := "auto_1",
           value := "first", rawValue := "A: first" },
         { node := { id := "n2", value := some "A: second", style := none,
                     edge := false, source := none, target := none, parent := none },
           nodeId := "n2", pfx := "A", prefixId := "auto_2",
           value := "second", rawValue := "A: second" }] := by rfl
    exact ⟨_, h, (findPrefixedNodes_id_uniqueness id "A" exPrefixDocOk).1 _ h⟩
  · exact (findPrefixedNodes_id_uniqueness id "A" exPrefixDocDup).2
      ⟨0, 1, "k1", by decide, by decide, by decide, by decide, by decide⟩

theorem findPrefixedNodesAux_skips_idless (hd : String → String) (tag : String)
    (post : List Elem) (n : Elem) (hid : n.id = "") :
    ∀ (pre : List Elem) (seen : List String) (ctr : Nat),
      findPrefixedNodesAux hd tag (pre ++ n :: post) seen ctr
        = findPrefixedNodesAux hd tag (pre ++ post) seen ctr := by
  intro pre
  induction pre with
  | nil =>
    intro seen ctr
    simp only [List.nil_append]
    cases hv : n.value with
    | none => exact fpnAux_cons_novalue hd tag n post seen ctr hv
    | some v => exact fpnAux_cons_noid hd tag n post seen ctr v hv hid
  | cons m pre1 ih =>
    intro seen ctr
    simp only [List.cons_append]
    cases hv : m.value with
    | none =>
      rw [fpnAux_cons_novalue hd tag m (pre1 ++ n :: post) seen ctr hv,
        fpnAux_cons_novalue hd tag m (pre1 ++ post) seen ctr hv]
      exact ih seen ctr
    | some v =>
      by_cases hmid : m.id = ""
      · rw [fpnAux_cons_noid hd tag m (pre1 ++ n :: post) seen ctr v hv hmid,
          fpnAux_cons_noid hd tag m (pre1 ++ post) seen ctr v hv hmid]
        exact ih seen ctr
      · cases hm : (extractPrefixFromNode hd tag m).matched with
        | false =>
          rw [fpnAux_cons_nomatch hd tag m (pre1 ++ n :: post) seen ctr v hv hmid hm,
            fpnAux_cons_nomatch hd tag m (pre1 ++ post) seen ctr v hv hmid hm]
          exact ih seen ctr
        | true =>
          cases hpid : (extractPrefixFromNode hd tag m).prefixId with
          | some pid =>
            by_cases hseen : pid ∈ seen
            · rw [fpnAux_cons_explicit_dup hd tag m (pre1 ++ n :: post) seen ctr v pid
                hv hmid hm hpid hseen,
                fpnAux_cons_explicit_dup hd tag m (pre1 ++ post) seen ctr v pid
                hv hmid hm hpid hseen]
            · rw [fpnAux_cons_explicit hd tag m (pre1 ++ n :: post) seen ctr v pid
                hv hmid hm hpid hseen,
                fpnAux_cons_explicit hd tag m (pre1 ++ post) seen ctr v pid
                hv hmid hm hpid hseen]
              rw [ih (pid :: seen) ctr]
          | none =>
            rw [fpnAux_cons_auto hd tag m (pre1 ++ n :: post) seen ctr v hv hmid hm hpid,
              fpnAux_cons_auto hd tag m (pre1 ++ post) seen ctr v hv hmid hm hpid]
            rw [ih ((genNextAutoId ctr seen).1 :: seen) (genNextAutoId ctr seen).2]

/-- Claim C9: an element without an `id` attribute contributes no
entity — removing it from the document anywhere leaves the result of
`findPrefixedNodes` unchanged, even when its value text matches the
prefix tag grammar. -/
theorem findPrefixedNodes_skips_idless (hd : String → String) (tag : String)
    (pre post : List Elem) (n : Elem) (hid : n.id = "") :
    findPrefixedNodes hd tag (pre ++ n :: post)
      = findPrefixedNodes hd tag (pre ++ post) := by
  unfold findPrefixedNodes
  exact findPrefixedNodesAux_skips_idless hd tag post n hid pre [] 1

/-- Witness for C9: an id-less element whose value "A: ghost" matches
the tag grammar is silently skipped. -/
theorem findPrefixedNodes_skips_idless_witness :
    findPrefixedNodes id "A" ([] ++ exIdlessElem :: exPrefixDocOk)
      = findPrefixedNodes id "A" ([] ++ exPrefixDocOk) :=
  findPrefixedNodes_skips_idless id "A" [] exPrefixDocOk exIdlessElem rfl
